import Mathlib

/-!
Shallow embedding of the TypeSync reconciliation engine (src/main.ts).

Conventions of the embedding:
* JS numbers are modelled as `Int` (every value the engine itself produces is an
  integer: `Date.now()` timestamps and integer YAML scalars).  `Number.isFinite`
  checks are implicit: the `Value.vNum` constructor only represents finite numbers.
* JS `Set<string>` is modelled as a `List String` in insertion order;
  `jsSetList` models `new Set(iterable)` (first occurrence wins).
* JS objects holding frontmatter are modelled as association lists
  `List (String × Value)` in insertion order; `objInsert` models `obj[k] = v`
  (overwrite in place, or append when the key is new) and `objLookup` models
  `obj[k]` / `hasOwnProperty`.
* `localeCompare` is modelled as the sign of lexicographic string comparison.
* Nondeterministic inputs (`Date.now()`, `Math.random()`, the YAML parser,
  the cancel button of the progress modal) are passed in as parameters.
-/

set_option linter.unusedVariables false

namespace TypeSync

/-- `TYPE_KEY` of src/main.ts: the discriminator property name. -/
def TYPE_KEY : String := "Type"

/-- `REV_AT_KEY` of src/main.ts: reserved revision-timestamp property. -/
def REV_AT_KEY : String := "_typesync_rev_at"

/-- `REV_ID_KEY` of src/main.ts: reserved revision-id property. -/
def REV_ID_KEY : String := "_typesync_rev_id"

/-- `INTERNAL_KEYS` of src/main.ts (a two-element set, kept in insertion order). -/
def INTERNAL_KEYS : List String := [REV_AT_KEY, REV_ID_KEY]

/-- `TypeSyncSettings` of src/main.ts. -/
structure TypeSyncSettings where
  mySetting : String
  syncOrder : Bool
  syncPropertyRemovals : Bool
deriving DecidableEq, Repr

/-- `SchemaRevision` of src/main.ts: `updatedAt` is a JS number (Date.now()), modelled as Int. -/
structure SchemaRevision where
  updatedAt : Int
  revisionId : String
deriving DecidableEq, Repr

/-- `SchemaChangeSummary` of src/main.ts. -/
structure SchemaChangeSummary where
  added : List String
  removed : List String
  orderChanged : Bool
  updatedAt : Int
  revisionId : String
deriving DecidableEq, Repr

/-- `TypeSchema` of src/main.ts (`rev` is the stored revision marker). -/
structure TypeSchema where
  keysOrdered : List String
  rev : SchemaRevision
  lastChangeSummary : Option SchemaChangeSummary
deriving DecidableEq, Repr

/-- Frontmatter values as produced by the YAML parser (finite JS values). -/
inductive Value where
  | vNull
  | vBool (b : Bool)
  | vNum (n : Int)
  | vStr (s : String)
deriving DecidableEq, Repr

/-- `Snapshot` of src/main.ts.  `keysSet` is the insertion-order element list of
the JS `Set<string>`; `frontmatterObj` is the parsed object as an association list. -/
structure Snapshot where
  typeValue : Option String
  keysSet : List String
  keysOrdered : List String
  frontmatterObj : List (String × Value)
  hasFrontmatter : Bool
  rawContent : String
  noteRev : Option SchemaRevision
deriving DecidableEq, Repr

/-- `Diff` of src/main.ts. -/
structure Diff where
  added : List String
  removed : List String
  orderChanged : Bool
deriving DecidableEq, Repr

/-- Model of `new Set(iterable)` for a string iterable: keep the first
occurrence of each element, in order.  (Equivalently: keep the head and
deduplicate the tail against it.) -/
def jsSetList : List String → List String
  | [] => []
  | a :: l => a :: (jsSetList l).filter (fun b => b != a)

/-- Model of `String.prototype.trim`: drop leading and trailing whitespace. -/
def jsTrim (s : String) : String :=
  String.mk ((s.data.dropWhile Char.isWhitespace).reverse.dropWhile Char.isWhitespace).reverse

/-- Lexicographic order on char lists (by code point). -/
def charListLt : List Char → List Char → Bool
  | [], [] => false
  | [], _ :: _ => true
  | _ :: _, [] => false
  | a :: xs, b :: ys => if a < b then true else if b < a then false else charListLt xs ys

/-- Sign model of `a.localeCompare(b)`: 0 when equal, negative when `a` orders
before `b`, positive otherwise (lexicographic order). -/
def compareStrings (a b : String) : Int :=
  if a = b then 0 else if charListLt a.data b.data then -1 else 1

/-- `compareRevisions` of src/main.ts. -/
def compareRevisions (a b : SchemaRevision) : Int :=
  if a.updatedAt ≠ b.updatedAt then a.updatedAt - b.updatedAt
  else compareStrings a.revisionId b.revisionId

/-- `isNoteAheadOfSchema` of src/main.ts: a missing note revision is never ahead. -/
def isNoteAheadOfSchema (noteRev : Option SchemaRevision) (schemaRev : SchemaRevision) : Bool :=
  match noteRev with
  | none => false
  | some r => decide (compareRevisions r schemaRev > 0)

/-- The sentinel marker (updatedAt 0, empty id) substituted for a missing
note revision by `isSchemaAheadOfNote`. -/
def missingNoteRev : SchemaRevision := ⟨0, ""⟩

/-- `isSchemaAheadOfNote` of src/main.ts. -/
def isSchemaAheadOfNote (schemaRev : SchemaRevision) (noteRev : Option SchemaRevision) : Bool :=
  decide (compareRevisions schemaRev (noteRev.getD missingNoteRev) > 0)

/-- `computeDiff` of src/main.ts.  The source's index-wise "identical sequences"
fast path (`length equal and every position equal`) is written as list equality. -/
def computeDiff (prev next : Snapshot) : Diff :=
  let prevSet := jsSetList prev.keysSet
  let nextSet := jsSetList next.keysSet
  let added := nextSet.filter (fun k => !(prevSet.contains k))
  let removed := prevSet.filter (fun k => !(nextSet.contains k))
  let orderChanged : Bool :=
    if decide (0 < prev.keysOrdered.length) && decide (0 < next.keysOrdered.length) then
      if prev.keysOrdered == next.keysOrdered then false
      else (prevSet.length == nextSet.length) && prevSet.all (fun k => nextSet.contains k)
    else false
  ⟨added, removed, orderChanged⟩

/-- `buildChangeSummary` of src/main.ts. -/
def buildChangeSummary (added removed : List String) (orderChanged : Bool)
    (rev : SchemaRevision) : SchemaChangeSummary :=
  let sanitize := fun (keys : List String) =>
    keys.filter (fun k => k != TYPE_KEY && !(INTERNAL_KEYS.contains k))
  ⟨sanitize added, sanitize removed, orderChanged, rev.updatedAt, rev.revisionId⟩

/-- `createSchemaRevision` of src/main.ts packs the clock reading (`Date.now()`)
and the freshly generated random id into a marker; both nondeterministic inputs
are parameters here. -/
def createSchemaRevision (now : Int) (id : String) : SchemaRevision := ⟨now, id⟩

/-- The change-summary argument of `updateSchemaRevision`. -/
structure RevChange where
  added : List String
  removed : List String
  orderChanged : Bool
deriving DecidableEq, Repr

/-- `updateSchemaRevision` of src/main.ts: replace the stored marker by the
freshly created one and record the change summary.  `freshRev` is the marker
`createSchemaRevision()` returns at this call. -/
def updateSchemaRevision (schema : TypeSchema) (change : RevChange)
    (freshRev : SchemaRevision) : TypeSchema :=
  { schema with
    rev := freshRev
    lastChangeSummary :=
      some (buildChangeSummary change.added change.removed change.orderChanged freshRev) }

/-- Model of `generateRevisionId`, i.e. `Math.random().toString(36).slice(2, 10)`.
`Math.random()` yields a grid double `n / 2^53` with `n < 2^53`; the first 8
fractional base-36 digits of it form the id, i.e. the number
`n * 36^8 / 2^53` (the string form trims trailing zero digits, which is an
injective re-encoding). -/
def generateRevisionId (n : Nat) : Nat := n * 36 ^ 8 / 2 ^ 53

/-- All ids `generateRevisionId` can produce over the full `Math.random()` grid. -/
def revisionIdSpace : Finset Nat := (Finset.range (2 ^ 53)).image generateRevisionId

/-- `obj[k]` / `Object.prototype.hasOwnProperty.call(obj, k)` on the
association-list model of a JS object. -/
def objLookup (obj : List (String × Value)) (k : String) : Option Value :=
  match obj.find? (fun p => p.1 == k) with
  | some p => some p.2
  | none => none

/-- `obj[k] = v` on the association-list model of a JS object: overwrite the
value in place if the key exists, else append the pair. -/
def objInsert (obj : List (String × Value)) (k : String) (v : Value) :
    List (String × Value) :=
  if (obj.find? (fun p => p.1 == k)).isSome then
    obj.map (fun p => if p.1 == k then (k, v) else p)
  else obj ++ [(k, v)]

/-- `extractTypeValue` of src/main.ts. -/
def extractTypeValue (fmObj : List (String × Value)) : Option String :=
  match objLookup fmObj TYPE_KEY with
  | some (Value.vStr v) =>
    let t := jsTrim v
    if t.length = 0 then none else some t
  | _ => none

/-- `extractNoteRevision` of src/main.ts: valid only if the timestamp is a
finite number and the id a non-blank string. -/
def extractNoteRevision (fmObj : List (String × Value)) : Option SchemaRevision :=
  match objLookup fmObj REV_AT_KEY, objLookup fmObj REV_ID_KEY with
  | some (Value.vNum at_), some (Value.vStr id) =>
    if (jsTrim id).length = 0 then none else some ⟨at_, id⟩
  | _, _ => none

/-- The first list begins with the second (model of `String.prototype.startsWith`). -/
def listStartsWith : List Char → List Char → Bool
  | _, [] => true
  | [], _ :: _ => false
  | a :: xs, b :: ys => a == b && listStartsWith xs ys

/-- Model of `hay.indexOf(needle, from)` for a nonempty needle: the least
position `≥ from` where `needle` occurs, if any.  `idx` is the position of the
current head. -/
def findSubFrom (needle : List Char) : List Char → Nat → Nat → Option Nat
  | [], _, _ => none
  | a :: rest, idx, from_ =>
    if decide (from_ ≤ idx) && listStartsWith (a :: rest) needle then some idx
    else findSubFrom needle rest (idx + 1) from_

/-- Remove one trailing newline (model of `.replace(/\n$/, "")`). -/
def stripTrailingNL (l : List Char) : List Char :=
  match l.reverse with
  | '\n' :: rest => rest.reverse
  | _ => l

/-- Result record of `extractFrontmatter`. -/
structure FrontmatterParts where
  frontmatterText : List Char
  bodyText : List Char
  hasFrontmatter : Bool
deriving DecidableEq, Repr

/-- `extractFrontmatter` of src/main.ts.  The document text is a char list
(UTF-16 indexing of the source is faithful for the marker characters involved). -/
def extractFrontmatter (content : List Char) : FrontmatterParts :=
  if !(listStartsWith content ['-', '-', '-', '\n']) && content != ['-', '-', '-'] then
    ⟨[], content, false⟩
  else
    match findSubFrom ['\n', '-', '-', '-'] content 0 4 with
    | none => ⟨[], content, false⟩
    | some end_ =>
      let fmText := stripTrailingNL ((content.drop 4).take (end_ - 4))
      let after := content.drop (end_ + 4)
      let body := if listStartsWith after ['\n'] then after.drop 1 else after
      ⟨fmText, body, true⟩

/-- One line run through the key regex of
`extractOrderedKeysFromFrontmatterText`.  The line matches exactly when its
first character is neither whitespace nor a comment mark and a colon occurs
later; the raw key is everything before that first later colon. -/
def lineKeyCandidate : List Char → Option (List Char)
  | [] => none
  | c :: rest =>
    if c == '#' || c.isWhitespace then none
    else if rest.contains ':' then some (c :: rest.takeWhile (fun ch => ch != ':'))
    else none

/-- Split a char list on a separator (model of `String.prototype.split`). -/
def splitOnChar (sep : Char) : List Char → List (List Char)
  | [] => [[]]
  | a :: rest =>
    let r := splitOnChar sep rest
    if a == sep then [] :: r
    else
      match r with
      | [] => [[a]]
      | h :: t => (a :: h) :: t

/-- `extractOrderedKeysFromFrontmatterText` of src/main.ts: tolerant line scan,
first occurrence wins, keys unknown to the parsed object are ignored, missed
keys are appended at the end. -/
def extractOrderedKeysFromFrontmatterText (frontmatterText : List Char)
    (keysSet : List String) : List String :=
  let lines := splitOnChar '\n' frontmatterText
  let keys := lines.foldl (fun (keys : List String) line =>
    match lineKeyCandidate line with
    | none => keys
    | some kraw =>
      let key := jsTrim (String.mk kraw)
      if key.length = 0 then keys
      else if !(keysSet.contains key) then keys
      else if keys.contains key then keys
      else keys ++ [key]) []
  keys ++ keysSet.filter (fun k => !(keys.contains k))

/-- Outcome of the structured parser (`parseYaml` of the obsidian API, i.e.
js-yaml `load`, an external collaborator): it throws on malformed input, or
returns null/undefined, a string scalar, another scalar (number, boolean, …),
an array, or a mapping. -/
inductive YamlResult where
  | thrown
  | nullish
  | scalarStr (s : List Char)
  | scalarOther
  | arr (elems : List Value)
  | obj (entries : List (String × Value))
deriving DecidableEq, Repr

/-- The own-property view of a JS string primitive used as an object:
`Object.keys("hello")` yields the index keys "0".."4" and indexing by such a
key yields the one-character string at that position. -/
def scalarIndexObj (s : List Char) : List (String × Value) :=
  s.enum.map (fun p => (toString p.1, Value.vStr (String.mk [p.2])))

/-- The own-property view of a JS array: `Object.keys` yields the index keys
and indexing yields the elements. -/
def arrayIndexObj (elems : List Value) : List (String × Value) :=
  elems.enum.map (fun p => (toString p.1, p.2))

/-- `buildSnapshot` of src/main.ts (reading the file replaced by the
`rawContent` argument; the structured parser passed as an oracle).  Returns
`none` exactly when the parser throws, which the source does not catch.
Non-mapping parser returns are represented by their own-property views:
null/undefined becomes an empty object (the `?? ` fallback in the source);
a string scalar exposes its index keys; other scalars have no own keys. -/
def buildSnapshot (yamlParse : List Char → YamlResult) (rawContent : List Char) :
    Option Snapshot :=
  let parts := extractFrontmatter rawContent
  let fmObjE : Option (List (String × Value)) :=
    if parts.hasFrontmatter then
      match yamlParse parts.frontmatterText with
      | .thrown => none
      | .nullish => some []
      | .scalarStr s => some (scalarIndexObj s)
      | .scalarOther => some []
      | .arr elems => some (arrayIndexObj elems)
      | .obj o => some o
    else some []
  match fmObjE with
  | none => none
  | some fmObj =>
    let keysSet := jsSetList ((fmObj.map Prod.fst).filter (fun k => !(INTERNAL_KEYS.contains k)))
    let typeValue := extractTypeValue fmObj
    let noteRev := extractNoteRevision fmObj
    let keysOrdered :=
      if parts.hasFrontmatter then
        extractOrderedKeysFromFrontmatterText parts.frontmatterText keysSet
      else keysSet
    let keysOrdered2 :=
      if keysSet.contains TYPE_KEY && !(keysOrdered.contains TYPE_KEY) then
        TYPE_KEY :: keysOrdered
      else keysOrdered
    some ⟨typeValue, keysSet, keysOrdered2, fmObj, parts.hasFrontmatter,
      String.mk rawContent, noteRev⟩

/-- `applyRevisionMarkers` of src/main.ts. -/
def applyRevisionMarkers (fmObj : List (String × Value)) (rev : SchemaRevision) :
    List (String × Value) :=
  objInsert (objInsert fmObj REV_AT_KEY (Value.vNum rev.updatedAt))
    REV_ID_KEY (Value.vStr rev.revisionId)

/-- `appendInternalKeys` of src/main.ts. -/
def appendInternalKeys (order : List String) (fmObj : List (String × Value)) :
    List String :=
  INTERNAL_KEYS.foldl (fun next key =>
    if (objLookup fmObj key).isSome && !(next.contains key) then next ++ [key]
    else next) order

/-- The `desiredKeys` of `rewriteToSchema`. -/
def rewriteDesiredKeys (schema : TypeSchema) : List String :=
  if schema.keysOrdered.contains TYPE_KEY then schema.keysOrdered
  else TYPE_KEY :: schema.keysOrdered

/-- The `finalKeys` of `rewriteToSchema`: schema keys plus, when removal sync is
off, the current non-schema keys. -/
def rewriteFinalKeys (settings : TypeSyncSettings) (schema : TypeSchema)
    (current : Snapshot) : List String :=
  let desiredKeys := rewriteDesiredKeys schema
  let extraKeys :=
    if settings.syncPropertyRemovals then []
    else current.keysOrdered.filter (fun k => !(desiredKeys.contains k))
  desiredKeys ++ extraKeys

/-- The per-key value computation of the `rewriteToSchema` output object. -/
def rewriteOutValue (typeValue : String) (currentObj : List (String × Value))
    (renameHint : Option (String × String)) (key : String) : Value :=
  if key = TYPE_KEY then Value.vStr typeValue
  else
    let renamed : Option Value :=
      match renameHint with
      | some (f, t) => if key = t then objLookup currentObj f else none
      | none => none
    match renamed with
    | some v => v
    | none =>
      match objLookup currentObj key with
      | some v => v
      | none => Value.vNull

/-- The write plan built by `rewriteToSchema` of src/main.ts: the key order and
the object handed to `rewriteFrontmatterByOrder`. -/
structure RewritePlan where
  finalOrder : List String
  outObj : List (String × Value)
deriving DecidableEq, Repr

/-- `rewriteToSchema` of src/main.ts, up to the final
`rewriteFrontmatterByOrder` call (whose arguments this returns).  `current` is
the freshly built snapshot of the file. -/
def rewriteToSchemaPlan (settings : TypeSyncSettings) (typeValue : String)
    (schema : TypeSchema) (current : Snapshot)
    (renameHint : Option (String × String)) : RewritePlan :=
  let finalKeys := rewriteFinalKeys settings schema current
  let outObj := finalKeys.foldl (fun acc key =>
    objInsert acc key (rewriteOutValue typeValue current.frontmatterObj renameHint key)) []
  let outObj2 := applyRevisionMarkers outObj schema.rev
  let finalOrder :=
    if settings.syncOrder then finalKeys
    else
      let filtered := current.keysOrdered.filter (fun k => finalKeys.contains k)
      filtered ++ finalKeys.filter (fun k => !(filtered.contains k))
  ⟨appendInternalKeys finalOrder outObj2, outObj2⟩

/-- The per-key value stored by `rewriteFrontmatterByOrder` of src/main.ts:
the looked-up value, with the Type value optionally forced. -/
def orderedObjValue (forceTypeValue : Option String) (key : String) (v : Value) : Value :=
  if key = TYPE_KEY then
    (match forceTypeValue with
     | some t => Value.vStr t
     | none => v)
  else v

/-- The value used by `rewriteFrontmatterByOrder` when re-adding a Type key
missed by the requested order (`opts.forceTypeValue ?? fmObj[TYPE_KEY]`). -/
def orderedObjTypeFill (forceTypeValue : Option String)
    (fmObj : List (String × Value)) : Value :=
  match forceTypeValue with
  | some t => Value.vStr t
  | none =>
    match objLookup fmObj TYPE_KEY with
    | some v => v
    | none => Value.vNull

/-- The object actually serialized by `rewriteFrontmatterByOrder` of
src/main.ts: keys in the requested order that exist in `fmObj`, with the Type
value optionally forced, and Type re-added if the order missed it. -/
def orderedObjFor (keysOrdered : List String) (fmObj : List (String × Value))
    (forceTypeValue : Option String) : List (String × Value) :=
  let orderedObj := keysOrdered.foldl (fun acc key =>
    match objLookup fmObj key with
    | none => acc
    | some v => objInsert acc key (orderedObjValue forceTypeValue key v)) []
  if (objLookup fmObj TYPE_KEY).isSome && !((objLookup orderedObj TYPE_KEY).isSome) then
    objInsert orderedObj TYPE_KEY (orderedObjTypeFill forceTypeValue fmObj)
  else orderedObj

/-- The frontmatter object a schema-conformant rewrite writes back to the file:
`rewriteToSchema` followed by the object assembly of `rewriteFrontmatterByOrder`
(with `forceTypeValue` set, as in the source). -/
def rewriteToSchemaWrittenObj (settings : TypeSyncSettings) (typeValue : String)
    (schema : TypeSchema) (current : Snapshot)
    (renameHint : Option (String × String)) : List (String × Value) :=
  let plan := rewriteToSchemaPlan settings typeValue schema current renameHint
  orderedObjFor plan.finalOrder plan.outObj (some typeValue)

/-- A vault file as `getFilesByType` sees it: its path, its cached snapshot (if
any) and the metadata-cache Type value used as fallback. -/
structure VaultFile where
  path : String
  snap : Option Snapshot
  cachedType : Option String
deriving DecidableEq, Repr

/-- `getFilesByType` of src/main.ts. -/
def getFilesByType (files : List VaultFile) (typeValue : String) : List VaultFile :=
  files.filter (fun f =>
    match f.snap with
    | some s => s.typeValue == some typeValue
    | none =>
      match f.cachedType with
      | some c => jsTrim c == typeValue
      | none => false)

/-- Lookup in the category → schema table (`this.schemas[typeValue]`). -/
def schemaLookup (schemas : List (String × TypeSchema)) (t : String) :
    Option TypeSchema :=
  match schemas.find? (fun p => p.1 == t) with
  | some p => some p.2
  | none => none

/-- The "no non-schema keys" check of the order-only branch of `handleModify`
(src/main.ts lines 715-721): the schema key set and the document key set agree
in size and membership. -/
def keySetMatchesSchema (schema : TypeSchema) (next : Snapshot) : Bool :=
  let schemaSet := jsSetList schema.keysOrdered
  let nextSet := jsSetList next.keysSet
  (schemaSet.length == nextSet.length) && schemaSet.all (fun k => nextSet.contains k)

/-- Terminal outcome of one debounced `handleModify` dispatch.  Outcomes that
in the source invoke further effects carry the data of those effects:
`schemaCreated`/`orderAdopted` persist the carried schema,
`orderAdopted` additionally starts a bulk rewrite of the carried targets,
`forceRewrite`/`orderDriftRewrite`/`typeKeyAddedRewrite` rewrite this file to
the schema, and `promptKeysChanged` opens the apply/revert modal. -/
inductive ModifyOutcome where
  | droppedLocked
  | deferTypeRemoval
  | typeChange
  | noopUntyped
  | pendingNoSchema (typeValue : String)
  | schemaCreated (typeValue : String) (schema : TypeSchema)
  | pendingStale (typeValue : String)
  | forceRewrite (typeValue : String)
  | orderDriftRewrite (typeValue : String)
  | orderAdopted (typeValue : String) (schema : TypeSchema) (targets : List VaultFile)
  | typeKeyRemovedNoop (typeValue : String)
  | typeKeyAddedRewrite (typeValue : String)
  | promptKeysChanged (typeValue : String) (added removed : List String)
  | noopNoChange (typeValue : String)
deriving DecidableEq, Repr

/-- `handleModify` of src/main.ts as a decision function.  `locked` is
`this.schemaLocked`; `freshRev` is the marker `createSchemaRevision()` would
return during this dispatch; `files`/`selfPath` feed `getFilesByType`; `prev`
is the cached snapshot and `next` the freshly built one.  Timer bookkeeping for
deferred Type removals is represented by the `deferTypeRemoval` outcome. -/
def handleModify (locked : Bool) (settings : TypeSyncSettings)
    (schemas : List (String × TypeSchema)) (freshRev : SchemaRevision)
    (files : List VaultFile) (selfPath : String)
    (prev : Option Snapshot) (next : Snapshot) : ModifyOutcome :=
  if locked then .droppedLocked
  else
    let prevType : Option String :=
      match prev with
      | some p => p.typeValue
      | none => none
    let nextType := next.typeValue
    if prevType.isSome && !nextType.isSome then .deferTypeRemoval
    else
      let prevHadRev : Bool :=
        match prev with
        | some p => p.noteRev.isSome
        | none => false
      let treatPrevTypeAsNext := !prevType.isSome && nextType.isSome && prevHadRev
      if !treatPrevTypeAsNext && prevType != nextType then .typeChange
      else
        match nextType with
        | none => .noopUntyped
        | some typeValue =>
          match schemaLookup schemas typeValue with
          | none =>
            if next.noteRev.isSome then .pendingNoSchema typeValue
            else
              .schemaCreated typeValue
                ⟨next.keysOrdered, freshRev,
                  some (buildChangeSummary next.keysSet [] false freshRev)⟩
          | some schema =>
            if isNoteAheadOfSchema next.noteRev schema.rev then .pendingStale typeValue
            else if isSchemaAheadOfNote schema.rev next.noteRev then .forceRewrite typeValue
            else
              let diff := computeDiff (match prev with | some p => p | none => next) next
              if settings.syncOrder && diff.added.isEmpty && diff.removed.isEmpty
                  && diff.orderChanged then
                if !(keySetMatchesSchema schema next) then .orderDriftRewrite typeValue
                else
                  let schema2 :=
                    updateSchemaRevision { schema with keysOrdered := next.keysOrdered }
                      ⟨[], [], true⟩ freshRev
                  .orderAdopted typeValue schema2
                    ((getFilesByType files typeValue).filter (fun f => f.path != selfPath))
              else if !diff.added.isEmpty || !diff.removed.isEmpty then
                if diff.removed.contains TYPE_KEY then .typeKeyRemovedNoop typeValue
                else if diff.added.contains TYPE_KEY then .typeKeyAddedRewrite typeValue
                else .promptKeysChanged typeValue diff.added diff.removed
              else .noopNoChange typeValue

/-- The final report of a bulk run: the counts handed to `onDone` plus the
state of the global lock after the `finally` block. -/
structure BulkReport where
  completed : Nat
  total : Nat
  canceled : Bool
  failures : Nat
  lockHeldAfter : Bool
deriving DecidableEq, Repr

/-- The `for` loop of `runBulk` of src/main.ts.  `perFile i a = false` models
the per-file operation throwing (caught, counted as a failure); `cancelAt i`
is the value of the modal's canceled flag when checked before file `i`.
Returns (completed, failures, broke-out-early, attempted indices). -/
def runBulkLoop (perFile : Nat → α → Bool) (cancelAt : Nat → Bool) :
    List (Option α) → Nat → Nat → Nat → List Nat → Nat × Nat × Bool × List Nat
  | [], _, completed, failures, attempted => (completed, failures, false, attempted)
  | f :: rest, i, completed, failures, attempted =>
    if cancelAt i then (completed, failures, true, attempted)
    else
      match f with
      | none => runBulkLoop perFile cancelAt rest (i + 1) completed failures attempted
      | some a =>
        runBulkLoop perFile cancelAt rest (i + 1) (completed + 1)
          (if perFile i a then failures else failures + 1) (attempted ++ [i])

/-- `runBulk` of src/main.ts: acquire the lock, loop, and in `finally` release
the lock and report `(completed, total, canceled, failures)`; also returns the
list of attempted indices.  The final `canceled` read happens after the loop,
modelled as `cancelAt files.length` when the loop was exhausted. -/
def runBulk (files : List (Option α)) (perFile : Nat → α → Bool)
    (cancelAt : Nat → Bool) : BulkReport × List Nat :=
  let r := runBulkLoop perFile cancelAt files 0 0 0 []
  (⟨r.1, files.length, r.2.2.1 || cancelAt files.length, r.2.1, false⟩, r.2.2.2)

/-- Specification-side description of which files a bulk run processes: walk
the list from index `i`, stop at the first canceled check, skip missing
entries.  Compared against `runBulk` in the bulk-runner theorem. -/
def processedSpec (cancelAt : Nat → Bool) : List (Option α) → Nat → List (Nat × α)
  | [], _ => []
  | f :: rest, i =>
    if cancelAt i then []
    else
      match f with
      | none => processedSpec cancelAt rest (i + 1)
      | some a => (i, a) :: processedSpec cancelAt rest (i + 1)

/-- Specification-side flag: does the loop break out early on a canceled check? -/
def brokeSpec (cancelAt : Nat → Bool) : List (Option α) → Nat → Bool
  | [], _ => false
  | _ :: rest, i => if cancelAt i then true else brokeSpec cancelAt rest (i + 1)

/-- A raw schema-table entry as loaded from persisted JSON, before
`normalizeSchemas`: the key list may be missing (or not an array) and the
revision may be missing. -/
structure RawSchema where
  keysOrdered : Option (List String)
  rev : Option SchemaRevision
  lastChangeSummary : Option SchemaChangeSummary
deriving DecidableEq, Repr

/-- `normalizeSchemas` of src/main.ts over the entry list of the table, with
the fresh-marker stream `freshAt` (successive `createSchemaRevision()` calls)
threaded through by the counter `i`.  An entry that is falsy or whose
`keysOrdered` is not an array is replaced wholesale; otherwise the
discriminator is prepended when absent and a missing revision is replaced by a
fresh one. -/
def normalizeSchemas (freshAt : Nat → SchemaRevision) :
    List (String × Option RawSchema) → Nat → List (String × TypeSchema)
  | [], _ => []
  | (t, s) :: rest, i =>
    match s with
    | none => (t, ⟨[TYPE_KEY], freshAt i, none⟩) :: normalizeSchemas freshAt rest (i + 1)
    | some raw =>
      match raw.keysOrdered with
      | none => (t, ⟨[TYPE_KEY], freshAt i, none⟩) :: normalizeSchemas freshAt rest (i + 1)
      | some keys =>
        let keys2 := if keys.contains TYPE_KEY then keys else TYPE_KEY :: keys
        match raw.rev with
        | some r => (t, ⟨keys2, r, raw.lastChangeSummary⟩) :: normalizeSchemas freshAt rest i
        | none =>
          (t, ⟨keys2, freshAt i, raw.lastChangeSummary⟩) :: normalizeSchemas freshAt rest (i + 1)

/-- `SchemaChangeNotice` of src/main.ts. -/
structure SchemaChangeNotice where
  typeValue : String
  added : List String
  removed : List String
  orderChanged : Bool
deriving DecidableEq, Repr

/-- The loop body of `computeSchemaChangeNotices` of src/main.ts for one entry
of the next table. -/
def noticeFor (prev : List (String × TypeSchema)) (entry : String × TypeSchema) :
    Option SchemaChangeNotice :=
  let typeValue := entry.1
  let nextSchema := entry.2
  match schemaLookup prev typeValue with
  | none =>
    some ⟨typeValue, nextSchema.keysOrdered.filter (fun k => k != TYPE_KEY), [], false⟩
  | some prevSchema =>
    if compareRevisions prevSchema.rev nextSchema.rev == 0 then none
    else
      let prevSet := jsSetList prevSchema.keysOrdered
      let nextSet := jsSetList nextSchema.keysOrdered
      let added := nextSet.filter (fun k => !(prevSet.contains k))
      let removed := prevSet.filter (fun k => !(nextSet.contains k))
      let orderChanged : Bool :=
        if prevSchema.keysOrdered.length == nextSchema.keysOrdered.length then
          !(prevSchema.keysOrdered == nextSchema.keysOrdered)
        else
          (prevSet.length == nextSet.length) && prevSet.all (fun k => nextSet.contains k)
      some ⟨typeValue, added.filter (fun k => k != TYPE_KEY),
        removed.filter (fun k => k != TYPE_KEY), orderChanged⟩

/-- `computeSchemaChangeNotices` of src/main.ts: one pass over the entries of
the next table. -/
def computeSchemaChangeNotices (prev next : List (String × TypeSchema)) :
    List SchemaChangeNotice :=
  next.filterMap (noticeFor prev)

/-! Concrete sample data used to instantiate the theorems below. -/

/-- Sample settings: defaults of src/main.ts (`syncOrder` on, removals off). -/
def sampleSettings : TypeSyncSettings := ⟨"default", true, false⟩

/-- A sample stored schema revision. -/
def sampleRev5 : SchemaRevision := ⟨5, "r"⟩

/-- A sample fresh clock revision, later than `sampleRev5`. -/
def sampleRev6 : SchemaRevision := ⟨6, "s"⟩

/-- A sample schema for category "T" with keys Type, a, b. -/
def sampleSchemaAB : TypeSchema := ⟨["Type", "a", "b"], sampleRev5, none⟩

/-- A sample schema for category "T" with keys Type, a, c (drifted key set). -/
def sampleSchemaAC : TypeSchema := ⟨["Type", "a", "c"], sampleRev5, none⟩

/-- A sample previous snapshot of a "T" document. -/
def samplePrevSnap : Snapshot :=
  ⟨some "T", ["Type", "a", "b"], ["Type", "a", "b"],
    [("Type", Value.vStr "T"), ("a", Value.vStr "1"), ("b", Value.vStr "2")],
    true, "", some sampleRev5⟩

/-- The same document with keys b and a reordered, revision in sync with the schema. -/
def sampleNextSnap : Snapshot :=
  ⟨some "T", ["Type", "a", "b"], ["Type", "b", "a"],
    [("Type", Value.vStr "T"), ("a", Value.vStr "1"), ("b", Value.vStr "2")],
    true, "", some sampleRev5⟩

/-- The same document carrying a revision strictly ahead of the schema. -/
def sampleAheadSnap : Snapshot :=
  ⟨some "T", ["Type", "a", "b"], ["Type", "b", "a"],
    [("Type", Value.vStr "T"), ("a", Value.vStr "1"), ("b", Value.vStr "2")],
    true, "", some ⟨7, "z"⟩⟩

/-- The same document carrying a revision strictly behind the schema. -/
def sampleBehindSnap : Snapshot :=
  ⟨some "T", ["Type", "a", "b"], ["Type", "b", "a"],
    [("Type", Value.vStr "T"), ("a", Value.vStr "1"), ("b", Value.vStr "2")],
    true, "", some ⟨4, "q"⟩⟩

/-- A sample sibling vault file of category "T". -/
def sampleFile1 : VaultFile := ⟨"doc1.md", some sampleNextSnap, none⟩

/-- A previous schema table: category "T" with keys Type, a. -/
def cxPrevTable : List (String × TypeSchema) := [("T", ⟨["Type", "a"], ⟨1, "x"⟩, none⟩)]

/-- A next schema table: category "T" re-revisioned with keys Type, b. -/
def cxNextTable : List (String × TypeSchema) := [("T", ⟨["Type", "b"], ⟨2, "y"⟩, none⟩)]

/-- A snapshot carrying the key list of `cxPrevTable`'s schema. -/
def cxPrevDiffSnap : Snapshot := ⟨none, ["Type", "a"], ["Type", "a"], [], false, "", none⟩

/-- A snapshot carrying the key list of `cxNextTable`'s schema. -/
def cxNextDiffSnap : Snapshot := ⟨none, ["Type", "b"], ["Type", "b"], [], false, "", none⟩

/-- js-yaml's behaviour on the concrete header texts used below: an unclosed
flow sequence throws, a comment-only block loads as null, a bare word loads as
that string scalar; other inputs do not occur in the theorems. -/
def sampleJsYaml : List Char → YamlResult := fun s =>
  if s = "[".data then YamlResult.thrown
  else if s = "# c".data then YamlResult.nullish
  else if s = "hello".data then YamlResult.scalarStr ("hello".data)
  else YamlResult.obj []

/-- A schema whose stored marker carries a blank revision id — reachable:
`generateRevisionId` returns "" on the Math.random() = 0 draw, and
`normalizeSchemas` keeps any present marker object. -/
def blankRevSchema : TypeSchema := ⟨["Type", "a"], ⟨5, ""⟩, none⟩

/-! Basic lemmas about the set and comparison models. -/

theorem contains_iff_mem (l : List String) (a : String) : l.contains a = true ↔ a ∈ l :=
  List.elem_iff

theorem mem_jsSetList {a : String} : ∀ {l : List String}, a ∈ jsSetList l ↔ a ∈ l
  | [] => by simp [jsSetList]
  | b :: l => by
    by_cases h : a = b
    · subst h
      simp [jsSetList]
    · simp [jsSetList, List.mem_filter, mem_jsSetList (l := l), bne_iff_ne, h]

theorem nodup_jsSetList : ∀ (l : List String), (jsSetList l).Nodup
  | [] => by simp [jsSetList]
  | b :: l => by
    simp only [jsSetList, List.nodup_cons]
    refine ⟨fun hmem => ?_, (nodup_jsSetList l).filter _⟩
    have := (List.mem_filter.mp hmem).2
    simp [bne_iff_ne] at this

theorem jsSetList_toFinset (l : List String) : (jsSetList l).toFinset = l.toFinset := by
  ext a
  simp [List.mem_toFinset, mem_jsSetList]

theorem length_jsSetList_eq_card (l : List String) :
    (jsSetList l).length = l.toFinset.card := by
  rw [← jsSetList_toFinset, List.toFinset_card_of_nodup (nodup_jsSetList l)]

theorem jsSameSet_iff (A B : List String) :
    ((((jsSetList A).length == (jsSetList B).length) &&
      (jsSetList A).all (fun k => (jsSetList B).contains k)) = true) ↔
    A.toFinset = B.toFinset := by
  rw [Bool.and_eq_true, beq_iff_eq, List.all_eq_true]
  constructor
  · rintro ⟨hlen, hsub⟩
    have hsub2 : A.toFinset ⊆ B.toFinset := by
      intro x hx
      have hxA : x ∈ jsSetList A := by
        rw [mem_jsSetList]; exact List.mem_toFinset.mp hx
      have := (contains_iff_mem _ _).mp (hsub x hxA)
      exact List.mem_toFinset.mpr (mem_jsSetList.mp this)
    have hcard : B.toFinset.card ≤ A.toFinset.card := by
      rw [← length_jsSetList_eq_card, ← length_jsSetList_eq_card, hlen]
    exact Finset.eq_of_subset_of_card_le hsub2 hcard
  · intro h
    refine ⟨by rw [length_jsSetList_eq_card, length_jsSetList_eq_card, h], ?_⟩
    intro x hx
    rw [contains_iff_mem, mem_jsSetList]
    rw [mem_jsSetList] at hx
    have := List.mem_toFinset.mpr hx
    rw [h] at this
    exact List.mem_toFinset.mp this

theorem compareStrings_self (s : String) : compareStrings s s = 0 := by
  simp [compareStrings]

theorem compareRevisions_self (r : SchemaRevision) : compareRevisions r r = 0 := by
  simp [compareRevisions, compareStrings_self]

theorem compareStrings_empty_le (s : String) : compareStrings "" s ≤ 0 := by
  by_cases h : ("" : String) = s
  · simp [compareStrings, h]
  · have hd : s.data ≠ [] := by
      intro hnil
      apply h
      cases s with
      | mk d => cases hnil; rfl
    cases hdata : s.data with
    | nil => exact absurd hdata hd
    | cons c cs =>
      have : charListLt ("" : String).data s.data = true := by
        rw [hdata]
        rfl
      simp [compareStrings, h, this]

theorem compareRevisions_missing_min (r : SchemaRevision) (h : 0 ≤ r.updatedAt) :
    compareRevisions missingNoteRev r ≤ 0 := by
  unfold compareRevisions missingNoteRev
  by_cases hat : (0 : Int) ≠ r.updatedAt
  · simp only [hat, if_true]
    omega
  · simp only [hat, if_false]
    exact compareStrings_empty_le r.revisionId

/-! C9: size of the revision-id space. -/

theorem revisionIdSpace_eq_range : revisionIdSpace = Finset.range (36 ^ 8) := by
  have h36 : (36 : Nat) ^ 8 = 2821109907456 := by norm_num
  have h2 : (2 : Nat) ^ 53 = 9007199254740992 := by norm_num
  apply Finset.Subset.antisymm
  · intro x hx
    simp only [revisionIdSpace, Finset.mem_image, Finset.mem_range] at hx
    obtain ⟨n, hn, rfl⟩ := hx
    simp only [Finset.mem_range, generateRevisionId]
    rw [h36, h2] at *
    omega
  · intro m hm
    simp only [Finset.mem_range] at hm
    simp only [revisionIdSpace, Finset.mem_image, Finset.mem_range, generateRevisionId]
    refine ⟨(m * 2 ^ 53 + 36 ^ 8 - 1) / 36 ^ 8, ?_, ?_⟩
    · rw [h36, h2] at *
      omega
    · rw [h36, h2] at *
      omega

/-- C9 counterexample: the claim that the id space holds at least `2^44`
values is false — the id is 8 base-36 digits, so the space has exactly
`36^8 < 2^44` elements. -/
theorem generateRevisionId_space_below_claimed_bound :
    ¬ (2 ^ 44 ≤ revisionIdSpace.card) := by
  rw [revisionIdSpace_eq_range, Finset.card_range]
  norm_num

/-- C9 (amended): `generateRevisionId` draws from a space of exactly `36^8`
values — more than `2^41` (about 41.4 bits) but strictly fewer than the
claimed `2^44`. -/
theorem generateRevisionId_space_size :
    revisionIdSpace.card = 36 ^ 8 ∧ 2 ^ 41 < 36 ^ 8 ∧ (36 : Nat) ^ 8 < 2 ^ 44 := by
  refine ⟨?_, by norm_num, by norm_num⟩
  rw [revisionIdSpace_eq_range, Finset.card_range]

/-! C4: schema revision monotonicity. -/

/-- C4 counterexample: `updateSchemaRevision` stores the clock's fresh marker
without comparing it to the replaced one, so a fresh marker created in the same
millisecond with a smaller random id is NOT strictly greater than its
predecessor (here: stored marker (5, "b") replaced via fresh marker (5, "a")). -/
theorem updateSchemaRevision_not_monotone :
    ¬ (compareRevisions
        (updateSchemaRevision ⟨["Type"], ⟨5, "b"⟩, none⟩ ⟨[], [], true⟩ ⟨5, "a"⟩).rev
        ⟨5, "b"⟩ > 0) := by
  decide

/-- C4 (amended): every mutation stores exactly the clock's fresh marker, so
each successive stored marker compares strictly greater than the one it
replaces precisely when the fresh clock marker does — in particular whenever
the clock timestamp strictly advanced between the two mutations. -/
theorem updateSchemaRevision_monotone_iff_clock
    (schema : TypeSchema) (change : RevChange) (freshRev : SchemaRevision) :
    (updateSchemaRevision schema change freshRev).rev = freshRev ∧
    (compareRevisions freshRev schema.rev > 0 →
      compareRevisions (updateSchemaRevision schema change freshRev).rev schema.rev > 0) ∧
    (freshRev.updatedAt > schema.rev.updatedAt →
      compareRevisions (updateSchemaRevision schema change freshRev).rev schema.rev > 0) := by
  refine ⟨rfl, fun h => h, fun h => ?_⟩
  show compareRevisions freshRev schema.rev > 0
  unfold compareRevisions
  have hne : freshRev.updatedAt ≠ schema.rev.updatedAt := by omega
  rw [if_pos hne]
  omega

/-- Witness for the amended C4 theorem at concrete inputs. -/
theorem updateSchemaRevision_monotone_iff_clock_witness :
    compareRevisions
      (updateSchemaRevision sampleSchemaAB ⟨[], [], true⟩ sampleRev6).rev
      sampleSchemaAB.rev > 0 :=
  (updateSchemaRevision_monotone_iff_clock sampleSchemaAB ⟨[], [], true⟩ sampleRev6).2.2
    (by decide)

/-! Lemmas about the JS object model (`objLookup` / `objInsert`). -/

theorem objLookup_cons (a : String × Value) (rest : List (String × Value)) (k : String) :
    objLookup (a :: rest) k = if a.1 == k then some a.2 else objLookup rest k := by
  cases h : (a.1 == k) <;> simp [objLookup, List.find?, h]

theorem objInsert_eq (obj : List (String × Value)) (k : String) (v : Value) :
    objInsert obj k v =
      if (objLookup obj k).isSome then obj.map (fun p => if p.1 == k then (k, v) else p)
      else obj ++ [(k, v)] := by
  unfold objInsert objLookup
  cases h : obj.find? (fun p => p.1 == k) <;> simp [h]

theorem objLookup_map_overwrite (k : String) (v : Value) :
    ∀ (obj : List (String × Value)),
      objLookup (obj.map (fun p => if p.1 == k then (k, v) else p)) k =
        if (objLookup obj k).isSome then some v else none
  | [] => by simp [objLookup]
  | a :: rest => by
    rw [List.map_cons, objLookup_cons, objLookup_cons]
    by_cases hk : (a.1 == k) = true
    · rw [if_pos hk, if_pos hk]
      simp
    · rw [if_neg hk, if_neg hk, if_neg hk]
      exact objLookup_map_overwrite k v rest

theorem objLookup_map_overwrite_ne (k : String) (v : Value) (q : String) (h : q ≠ k) :
    ∀ (obj : List (String × Value)),
      objLookup (obj.map (fun p => if p.1 == k then (k, v) else p)) q = objLookup obj q
  | [] => rfl
  | a :: rest => by
    rw [List.map_cons, objLookup_cons, objLookup_cons]
    by_cases hk : (a.1 == k) = true
    · have ha : a.1 = k := by simpa using hk
      rw [if_pos hk]
      have h1 : ¬ (((k, v).1 == q) = true) := by simp [Ne.symm h]
      have h2 : ¬ ((a.1 == q) = true) := by simp [ha, Ne.symm h]
      rw [if_neg h1, if_neg h2, objLookup_map_overwrite_ne k v q h rest]
    · rw [if_neg hk, objLookup_map_overwrite_ne k v q h rest]

theorem objLookup_append_single (obj : List (String × Value)) (k : String) (v : Value)
    (h : objLookup obj k = none) : objLookup (obj ++ [(k, v)]) k = some v := by
  induction obj with
  | nil => simp [objLookup_cons]
  | cons a rest ih =>
    rw [List.cons_append, objLookup_cons]
    rw [objLookup_cons] at h
    by_cases hk : (a.1 == k) = true
    · rw [if_pos hk] at h
      cases h
    · rw [if_neg hk] at h ⊢
      exact ih h

theorem objLookup_append_single_ne (obj : List (String × Value)) (k : String) (v : Value)
    (q : String) (h : q ≠ k) : objLookup (obj ++ [(k, v)]) q = objLookup obj q := by
  induction obj with
  | nil =>
    have h1 : (k == q) = false := by simp [Ne.symm h]
    simp [objLookup_cons, h1, objLookup]
  | cons a rest ih =>
    rw [List.cons_append, objLookup_cons, objLookup_cons, ih]

theorem objLookup_objInsert_self (obj : List (String × Value)) (k : String) (v : Value) :
    objLookup (objInsert obj k v) k = some v := by
  rw [objInsert_eq]
  by_cases hs : (objLookup obj k).isSome = true
  · rw [if_pos hs, objLookup_map_overwrite, if_pos hs]
  · rw [if_neg hs]
    apply objLookup_append_single
    cases hx : objLookup obj k
    · rfl
    · rw [hx] at hs
      simp at hs

theorem objLookup_objInsert_ne (obj : List (String × Value)) (k : String) (v : Value)
    (q : String) (h : q ≠ k) : objLookup (objInsert obj k v) q = objLookup obj q := by
  rw [objInsert_eq]
  by_cases hs : (objLookup obj k).isSome = true
  · rw [if_pos hs, objLookup_map_overwrite_ne k v q h]
  · rw [if_neg hs, objLookup_append_single_ne obj k v q h]

theorem objLookup_insertFold_notMem (V : String → Value) :
    ∀ (keys : List String) (acc : List (String × Value)) (k : String), k ∉ keys →
      objLookup (keys.foldl (fun acc key => objInsert acc key (V key)) acc) k =
        objLookup acc k
  | [], acc, k, _ => rfl
  | h :: t, acc, k, hk => by
    have h1 : k ≠ h := fun he => hk (he ▸ List.mem_cons_self h t)
    have h2 : k ∉ t := fun he => hk (List.mem_cons_of_mem h he)
    rw [List.foldl_cons, objLookup_insertFold_notMem V t _ k h2,
      objLookup_objInsert_ne _ _ _ _ h1]

theorem objLookup_insertFold_mem (V : String → Value) :
    ∀ (keys : List String) (acc : List (String × Value)) (k : String), k ∈ keys →
      objLookup (keys.foldl (fun acc key => objInsert acc key (V key)) acc) k = some (V k)
  | [], acc, k, hk => absurd hk (List.not_mem_nil k)
  | h :: t, acc, k, hk => by
    rw [List.foldl_cons]
    by_cases ht : k ∈ t
    · exact objLookup_insertFold_mem V t _ k ht
    · have hkh : k = h := by
        rcases List.mem_cons.mp hk with he | he
        · exact he
        · exact absurd he ht
      subst hkh
      rw [objLookup_insertFold_notMem V t _ k ht, objLookup_objInsert_self]

theorem objLookup_condFold_notMem (fm : List (String × Value)) (T : String → Value → Value) :
    ∀ (keys : List String) (acc : List (String × Value)) (k : String), k ∉ keys →
      objLookup (keys.foldl (fun acc key =>
        match objLookup fm key with
        | none => acc
        | some v => objInsert acc key (T key v)) acc) k = objLookup acc k
  | [], acc, k, _ => rfl
  | h :: t, acc, k, hk => by
    have h1 : k ≠ h := fun he => hk (he ▸ List.mem_cons_self h t)
    have h2 : k ∉ t := fun he => hk (List.mem_cons_of_mem h he)
    rw [List.foldl_cons, objLookup_condFold_notMem fm T t _ k h2]
    cases hx : objLookup fm h
    · rfl
    · exact objLookup_objInsert_ne _ _ _ _ h1

theorem objLookup_condFold_mem (fm : List (String × Value)) (T : String → Value → Value) :
    ∀ (keys : List String) (acc : List (String × Value)) (k : String) (v : Value),
      k ∈ keys → objLookup fm k = some v →
      objLookup (keys.foldl (fun acc key =>
        match objLookup fm key with
        | none => acc
        | some v => objInsert acc key (T key v)) acc) k = some (T k v)
  | [], acc, k, v, hk, _ => absurd hk (List.not_mem_nil k)
  | h :: t, acc, k, v, hk, hv => by
    rw [List.foldl_cons]
    by_cases ht : k ∈ t
    · exact objLookup_condFold_mem fm T t _ k v ht hv
    · have hkh : k = h := by
        rcases List.mem_cons.mp hk with he | he
        · exact he
        · exact absurd he ht
      subst hkh
      rw [objLookup_condFold_notMem fm T t _ k ht, hv, objLookup_objInsert_self]

/-! Lemmas about `appendInternalKeys`, the rewrite plan and the written object. -/

theorem mem_internalStep (x : List String) (obj : List (String × Value)) (key k : String)
    (h : k ∈ x) :
    k ∈ (if (objLookup obj key).isSome && !(x.contains key) then x ++ [key] else x) := by
  split
  · exact List.mem_append_left _ h
  · exact h

theorem mem_internalStep_self (x : List String) (obj : List (String × Value)) (key : String)
    (hs : (objLookup obj key).isSome = true) :
    key ∈ (if (objLookup obj key).isSome && !(x.contains key) then x ++ [key] else x) := by
  split
  case isTrue => exact List.mem_append_right _ (List.mem_singleton.mpr rfl)
  case isFalse h =>
    rw [hs] at h
    simp only [Bool.true_and, Bool.not_eq_true', Bool.not_eq_false] at h
    exact (contains_iff_mem _ _).mp h

theorem mem_appendInternalKeys_internal (order : List String) (obj : List (String × Value))
    (k : String) (hk : k ∈ INTERNAL_KEYS) (hs : (objLookup obj k).isSome = true) :
    k ∈ appendInternalKeys order obj := by
  unfold appendInternalKeys INTERNAL_KEYS
  simp only [List.foldl_cons, List.foldl_nil]
  have hcases : k = REV_AT_KEY ∨ k = REV_ID_KEY := by
    simpa [INTERNAL_KEYS] using hk
  rcases hcases with rfl | rfl
  · exact mem_internalStep _ obj REV_ID_KEY _ (mem_internalStep_self order obj REV_AT_KEY hs)
  · exact mem_internalStep_self _ obj REV_ID_KEY hs

theorem mem_appendInternalKeys_of_mem (order : List String) (obj : List (String × Value))
    (k : String) (h : k ∈ order) : k ∈ appendInternalKeys order obj := by
  unfold appendInternalKeys INTERNAL_KEYS
  simp only [List.foldl_cons, List.foldl_nil]
  exact mem_internalStep _ obj REV_ID_KEY _ (mem_internalStep order obj REV_AT_KEY _ h)

theorem orderedObjValue_ne_type (force : Option String) (k : String) (v : Value)
    (hne : k ≠ TYPE_KEY) : orderedObjValue force k v = v := by
  unfold orderedObjValue
  rw [if_neg hne]

theorem objLookup_orderedObjFor_ne_type (keysOrdered : List String)
    (fmObj : List (String × Value)) (force : Option String) (k : String) (v : Value)
    (hk : k ∈ keysOrdered) (hv : objLookup fmObj k = some v) (hne : k ≠ TYPE_KEY) :
    objLookup (orderedObjFor keysOrdered fmObj force) k = some v := by
  have hfold := objLookup_condFold_mem fmObj (orderedObjValue force) keysOrdered [] k v hk hv
  rw [orderedObjValue_ne_type force k v hne] at hfold
  simp only [orderedObjFor]
  split
  · rw [objLookup_objInsert_ne _ _ _ _ hne]
    exact hfold
  · exact hfold

theorem objLookup_rewritePlan_revAt (settings : TypeSyncSettings) (typeValue : String)
    (schema : TypeSchema) (current : Snapshot) (renameHint : Option (String × String)) :
    objLookup (rewriteToSchemaPlan settings typeValue schema current renameHint).outObj
      REV_AT_KEY = some (Value.vNum schema.rev.updatedAt) := by
  unfold rewriteToSchemaPlan applyRevisionMarkers
  rw [objLookup_objInsert_ne _ _ _ _ (by decide), objLookup_objInsert_self]

theorem objLookup_rewritePlan_revId (settings : TypeSyncSettings) (typeValue : String)
    (schema : TypeSchema) (current : Snapshot) (renameHint : Option (String × String)) :
    objLookup (rewriteToSchemaPlan settings typeValue schema current renameHint).outObj
      REV_ID_KEY = some (Value.vStr schema.rev.revisionId) := by
  unfold rewriteToSchemaPlan applyRevisionMarkers
  rw [objLookup_objInsert_self]

theorem objLookup_rewritePlan_outObj (settings : TypeSyncSettings) (typeValue : String)
    (schema : TypeSchema) (current : Snapshot) (renameHint : Option (String × String))
    (k : String) (hk : k ∈ rewriteFinalKeys settings schema current)
    (hat : k ≠ REV_AT_KEY) (hid : k ≠ REV_ID_KEY) :
    objLookup (rewriteToSchemaPlan settings typeValue schema current renameHint).outObj k
      = some (rewriteOutValue typeValue current.frontmatterObj renameHint k) := by
  unfold rewriteToSchemaPlan applyRevisionMarkers
  rw [objLookup_objInsert_ne _ _ _ _ hid, objLookup_objInsert_ne _ _ _ _ hat]
  exact objLookup_insertFold_mem _ _ _ _ hk

theorem mem_rewritePlan_finalOrder (settings : TypeSyncSettings) (typeValue : String)
    (schema : TypeSchema) (current : Snapshot) (renameHint : Option (String × String))
    (k : String) (hk : k ∈ rewriteFinalKeys settings schema current) :
    k ∈ (rewriteToSchemaPlan settings typeValue schema current renameHint).finalOrder := by
  unfold rewriteToSchemaPlan
  apply mem_appendInternalKeys_of_mem
  split
  · exact hk
  · by_cases hfil :
      k ∈ current.keysOrdered.filter
        (fun x => (rewriteFinalKeys settings schema current).contains x)
    · exact List.mem_append_left _ hfil
    · apply List.mem_append_right
      refine List.mem_filter.mpr ⟨hk, ?_⟩
      simp only [Bool.not_eq_true', ← Bool.not_eq_true]
      intro hcon
      exact hfil ((contains_iff_mem _ _).mp hcon)

theorem rewriteOutValue_no_hint (typeValue : String) (currentObj : List (String × Value))
    (k : String) (v : Value) (hT : k ≠ TYPE_KEY) (hv : objLookup currentObj k = some v) :
    rewriteOutValue typeValue currentObj none k = v := by
  unfold rewriteOutValue
  rw [if_neg hT]
  simp only [hv]

theorem mem_rewritePlan_finalOrder_internal (settings : TypeSyncSettings)
    (typeValue : String) (schema : TypeSchema) (current : Snapshot)
    (renameHint : Option (String × String)) (k : String) (hk : k ∈ INTERNAL_KEYS)
    (hs : (objLookup (rewriteToSchemaPlan settings typeValue schema current renameHint).outObj
      k).isSome = true) :
    k ∈ (rewriteToSchemaPlan settings typeValue schema current renameHint).finalOrder := by
  unfold rewriteToSchemaPlan at hs ⊢
  exact mem_appendInternalKeys_internal _ _ _ hk hs

/-! C10: a schema-conformant rewrite stamps the schema's revision marker. -/

/-- C10 counterexample: a schema marker with a blank revision id — reachable,
since `generateRevisionId` returns "" on the Math.random() = 0 draw and
`normalizeSchemas` keeps any present marker object — is stamped into the
rewritten document, but the extractor rejects the blank id: the rewritten
document has no revision, so its revision does not compare equal to the
schema's, and re-processing takes the schema-ahead staleness branch again. -/
theorem blank_rev_rewrite_not_in_sync :
    objLookup (rewriteToSchemaWrittenObj sampleSettings "T" blankRevSchema sampleNextSnap none)
      REV_ID_KEY = some (Value.vStr "") ∧
    extractNoteRevision
      (rewriteToSchemaWrittenObj sampleSettings "T" blankRevSchema sampleNextSnap none)
      = none ∧
    isSchemaAheadOfNote blankRevSchema.rev
      (extractNoteRevision
        (rewriteToSchemaWrittenObj sampleSettings "T" blankRevSchema sampleNextSnap none))
      = true := by
  refine ⟨by decide, by decide, by decide⟩

/-- C10 (amended): `rewriteToSchema` stamps both reserved revision properties
with the governing schema's current marker; provided the marker's id is not
blank (which the extractor requires; blank ids arise only from the
Math.random() = 0 draw or an externally persisted table), re-extracting the
revision from the written object yields exactly the schema's marker, so
neither side is strictly ahead afterwards and re-processing takes neither
staleness branch. -/
theorem rewrite_stamps_schema_revision (settings : TypeSyncSettings) (typeValue : String)
    (schema : TypeSchema) (current : Snapshot) (renameHint : Option (String × String))
    (hid : (jsTrim schema.rev.revisionId).length ≠ 0) :
    objLookup (rewriteToSchemaWrittenObj settings typeValue schema current renameHint)
      REV_AT_KEY = some (Value.vNum schema.rev.updatedAt) ∧
    objLookup (rewriteToSchemaWrittenObj settings typeValue schema current renameHint)
      REV_ID_KEY = some (Value.vStr schema.rev.revisionId) ∧
    extractNoteRevision (rewriteToSchemaWrittenObj settings typeValue schema current renameHint)
      = some schema.rev ∧
    isNoteAheadOfSchema (some schema.rev) schema.rev = false ∧
    isSchemaAheadOfNote schema.rev (some schema.rev) = false := by
  have hwe : rewriteToSchemaWrittenObj settings typeValue schema current renameHint =
      orderedObjFor
        (rewriteToSchemaPlan settings typeValue schema current renameHint).finalOrder
        (rewriteToSchemaPlan settings typeValue schema current renameHint).outObj
        (some typeValue) := rfl
  have hvAT := objLookup_rewritePlan_revAt settings typeValue schema current renameHint
  have hvID := objLookup_rewritePlan_revId settings typeValue schema current renameHint
  have hmAT := mem_rewritePlan_finalOrder_internal settings typeValue schema current renameHint
    REV_AT_KEY (by simp [INTERNAL_KEYS]) (by rw [hvAT]; rfl)
  have hmID := mem_rewritePlan_finalOrder_internal settings typeValue schema current renameHint
    REV_ID_KEY (by simp [INTERNAL_KEYS]) (by rw [hvID]; rfl)
  have hat : objLookup (rewriteToSchemaWrittenObj settings typeValue schema current renameHint)
      REV_AT_KEY = some (Value.vNum schema.rev.updatedAt) := by
    rw [hwe]
    exact objLookup_orderedObjFor_ne_type _ _ _ _ _ hmAT hvAT (by decide)
  have hidq : objLookup (rewriteToSchemaWrittenObj settings typeValue schema current renameHint)
      REV_ID_KEY = some (Value.vStr schema.rev.revisionId) := by
    rw [hwe]
    exact objLookup_orderedObjFor_ne_type _ _ _ _ _ hmID hvID (by decide)
  refine ⟨hat, hidq, ?_, ?_, ?_⟩
  · unfold extractNoteRevision
    rw [hat, hidq]
    show (if (jsTrim schema.rev.revisionId).length = 0 then none
      else some ⟨schema.rev.updatedAt, schema.rev.revisionId⟩) = some schema.rev
    rw [if_neg hid]
  · show decide (compareRevisions schema.rev schema.rev > 0) = false
    rw [compareRevisions_self]
    decide
  · unfold isSchemaAheadOfNote
    show decide (compareRevisions schema.rev ((some schema.rev).getD missingNoteRev) > 0) = false
    rw [Option.getD_some, compareRevisions_self]
    decide

theorem mem_rewriteFinalKeys_of_schema (settings : TypeSyncSettings) (schema : TypeSchema)
    (current : Snapshot) (k : String) (hk : k ∈ schema.keysOrdered) :
    k ∈ rewriteFinalKeys settings schema current := by
  simp only [rewriteFinalKeys]
  apply List.mem_append_left
  unfold rewriteDesiredKeys
  split
  · exact hk
  · exact List.mem_cons_of_mem _ hk

/-! C1: the staleness check of `handleModify`. -/

/-- C1: with the sentinel for a missing document revision being the minimum
possible marker (for clock-generated markers, whose timestamps are
non-negative), a document revision strictly ahead of the schema's marks the
category pending and stops without rewriting; a schema revision strictly ahead
of the document's forces a schema-conformant rewrite, and that rewrite
preserves the value of every key present in both the document and the schema. -/
theorem staleness_check (settings : TypeSyncSettings)
    (schemas : List (String × TypeSchema)) (freshRev : SchemaRevision)
    (files : List VaultFile) (selfPath : String) (p next : Snapshot) (t : String)
    (schema : TypeSchema) (hprev : p.typeValue = some t) (hnext : next.typeValue = some t)
    (hschema : schemaLookup schemas t = some schema) :
    (∀ r : SchemaRevision, 0 ≤ r.updatedAt → compareRevisions missingNoteRev r ≤ 0) ∧
    (isNoteAheadOfSchema next.noteRev schema.rev = true →
      handleModify false settings schemas freshRev files selfPath (some p) next =
        ModifyOutcome.pendingStale t) ∧
    (isNoteAheadOfSchema next.noteRev schema.rev = false →
      isSchemaAheadOfNote schema.rev next.noteRev = true →
      handleModify false settings schemas freshRev files selfPath (some p) next =
        ModifyOutcome.forceRewrite t ∧
      (∀ (current : Snapshot) (k : String) (v : Value),
        k ∈ schema.keysOrdered → k ≠ TYPE_KEY → k ∉ INTERNAL_KEYS →
        objLookup current.frontmatterObj k = some v →
        objLookup (rewriteToSchemaWrittenObj settings t schema current none) k = some v)) := by
  refine ⟨compareRevisions_missing_min, ?_, ?_⟩
  · intro hna
    simp [handleModify, hprev, hnext, hschema, hna]
  · intro hna hsa
    constructor
    · simp [handleModify, hprev, hnext, hschema, hna, hsa]
    · intro current k v hk hT hI hv
      have hAT : k ≠ REV_AT_KEY := fun he => hI (by rw [he]; simp [INTERNAL_KEYS])
      have hID : k ≠ REV_ID_KEY := fun he => hI (by rw [he]; simp [INTERNAL_KEYS])
      have hfk : k ∈ rewriteFinalKeys settings schema current :=
        mem_rewriteFinalKeys_of_schema settings schema current k hk
      have hout : objLookup (rewriteToSchemaPlan settings t schema current none).outObj k
          = some v := by
        rw [objLookup_rewritePlan_outObj settings t schema current none k hfk hAT hID,
          rewriteOutValue_no_hint t current.frontmatterObj k v hT hv]
      have hmf : k ∈ (rewriteToSchemaPlan settings t schema current none).finalOrder :=
        mem_rewritePlan_finalOrder settings t schema current none k hfk
      have hwe : rewriteToSchemaWrittenObj settings t schema current none =
          orderedObjFor (rewriteToSchemaPlan settings t schema current none).finalOrder
            (rewriteToSchemaPlan settings t schema current none).outObj (some t) := rfl
      rw [hwe]
      exact objLookup_orderedObjFor_ne_type _ _ _ _ _ hmf hout hT

/-- Witness for C1: at concrete inputs, a document marker (7, "z") strictly
ahead of the schema marker (5, "r") yields the pending outcome, and a document
marker (4, "q") strictly behind it yields the forced rewrite. -/
theorem staleness_check_witness :
    handleModify false sampleSettings [("T", sampleSchemaAB)] sampleRev6 [] "self.md"
      (some samplePrevSnap) sampleAheadSnap = ModifyOutcome.pendingStale "T" ∧
    handleModify false sampleSettings [("T", sampleSchemaAB)] sampleRev6 [] "self.md"
      (some samplePrevSnap) sampleBehindSnap = ModifyOutcome.forceRewrite "T" :=
  ⟨(staleness_check sampleSettings [("T", sampleSchemaAB)] sampleRev6 [] "self.md"
      samplePrevSnap sampleAheadSnap "T" sampleSchemaAB rfl rfl rfl).2.1 (by decide),
   ((staleness_check sampleSettings [("T", sampleSchemaAB)] sampleRev6 [] "self.md"
      samplePrevSnap sampleBehindSnap "T" sampleSchemaAB rfl rfl rfl).2.2
      (by decide) (by decide)).1⟩

/-- Witness for C10 at concrete inputs. -/
theorem rewrite_stamps_schema_revision_witness :
    extractNoteRevision
      (rewriteToSchemaWrittenObj sampleSettings "T" sampleSchemaAB sampleNextSnap none)
      = some sampleSchemaAB.rev ∧
    isSchemaAheadOfNote sampleSchemaAB.rev (some sampleSchemaAB.rev) = false :=
  ⟨(rewrite_stamps_schema_revision sampleSettings "T" sampleSchemaAB sampleNextSnap none
      (by decide)).2.2.1,
   (rewrite_stamps_schema_revision sampleSettings "T" sampleSchemaAB sampleNextSnap none
      (by decide)).2.2.2.2⟩

/-! C2: the diff engine. -/

theorem contains_jsSetList (l : List String) (a : String) :
    (jsSetList l).contains a = true ↔ a ∈ l := by
  rw [contains_iff_mem, mem_jsSetList]

theorem not_contains_jsSetList (l : List String) (a : String) :
    ((!((jsSetList l).contains a)) = true) ↔ a ∉ l := by
  constructor
  · intro h hmem
    rw [(contains_jsSetList l a).mpr hmem] at h
    exact absurd h (by decide)
  · intro h
    cases hc : (jsSetList l).contains a
    · rfl
    · exact absurd ((contains_jsSetList l a).mp hc) h

/-- C2: `computeDiff` computes `added`/`removed` as the key-set differences, and
`orderChanged` is true exactly for a genuine non-identical permutation of the
same key set (for well-formed snapshots, whose key order is a permutation of
the duplicate-free key set). -/
theorem compute_diff_correct (prev next : Snapshot)
    (hp : prev.keysSet.Nodup) (hn : next.keysSet.Nodup)
    (hpo : prev.keysOrdered.Perm prev.keysSet) (hno : next.keysOrdered.Perm next.keysSet) :
    (computeDiff prev next).added.toFinset = next.keysSet.toFinset \ prev.keysSet.toFinset ∧
    (computeDiff prev next).removed.toFinset = prev.keysSet.toFinset \ next.keysSet.toFinset ∧
    ((computeDiff prev next).orderChanged = true ↔
      (prev.keysOrdered ≠ next.keysOrdered ∧ prev.keysOrdered.Perm next.keysOrdered)) := by
  refine ⟨?_, ?_, ?_⟩
  · show ((jsSetList next.keysSet).filter
      (fun k => !((jsSetList prev.keysSet).contains k))).toFinset = _
    ext x
    simp only [List.mem_toFinset, List.mem_filter, mem_jsSetList, Finset.mem_sdiff,
      not_contains_jsSetList]
  · show ((jsSetList prev.keysSet).filter
      (fun k => !((jsSetList next.keysSet).contains k))).toFinset = _
    ext x
    simp only [List.mem_toFinset, List.mem_filter, mem_jsSetList, Finset.mem_sdiff,
      not_contains_jsSetList]
  · simp only [computeDiff]
    by_cases hpe : prev.keysOrdered = []
    · have h1 : decide (0 < prev.keysOrdered.length) = false := by simp [hpe]
      rw [h1]
      simp only [Bool.false_and, Bool.false_eq_true, if_false, false_iff, not_and]
      intro hne hperm
      rw [hpe] at hperm
      exact hne (hpe.trans hperm.nil_eq)
    · by_cases hne2 : next.keysOrdered = []
      · have h2 : decide (0 < next.keysOrdered.length) = false := by simp [hne2]
        rw [h2]
        simp only [Bool.and_false, Bool.false_eq_true, if_false, false_iff, not_and]
        intro hne hperm
        rw [hne2] at hperm
        exact hne (hperm.eq_nil.trans hne2.symm)
      · have h1 : decide (0 < prev.keysOrdered.length) = true := by
          simp [List.length_pos, hpe]
        have h2 : decide (0 < next.keysOrdered.length) = true := by
          simp [List.length_pos, hne2]
        rw [h1, h2]
        simp only [Bool.and_self, if_true]
        by_cases heq : prev.keysOrdered = next.keysOrdered
        · rw [if_pos (by simp [heq])]
          simp only [Bool.false_eq_true, false_iff, not_and]
          intro hne
          exact absurd heq hne
        · rw [if_neg (by simp [heq])]
          rw [jsSameSet_iff]
          constructor
          · intro hfin
            refine ⟨heq, ?_⟩
            have hksperm : prev.keysSet.Perm next.keysSet :=
              List.perm_of_nodup_nodup_toFinset_eq hp hn hfin
            exact hpo.trans (hksperm.trans hno.symm)
          · rintro ⟨-, hperm⟩
            have hksperm : prev.keysSet.Perm next.keysSet :=
              hpo.symm.trans (hperm.trans hno)
            exact List.toFinset_eq_of_perm _ _ hksperm

/-- Witness for C2 at concrete snapshots (keys b, a swapped). -/
theorem compute_diff_correct_witness :
    (computeDiff samplePrevSnap sampleNextSnap).orderChanged = true ↔
      (samplePrevSnap.keysOrdered ≠ sampleNextSnap.keysOrdered ∧
        samplePrevSnap.keysOrdered.Perm sampleNextSnap.keysOrdered) :=
  (compute_diff_correct samplePrevSnap sampleNextSnap (by decide) (by decide)
    (by decide) (by decide)).2.2

/-! C3: the order-only branch of `handleModify`. -/

theorem keySetMatchesSchema_iff (schema : TypeSchema) (next : Snapshot) :
    keySetMatchesSchema schema next = true ↔
      schema.keysOrdered.toFinset = next.keysSet.toFinset := by
  simp only [keySetMatchesSchema]
  exact jsSameSet_iff _ _

/-- C3: on an order-only change with order sync enabled, when the document key
set exactly equals the schema key set the schema adopts the document's order
with a bumped (fresh) revision and a bulk rewrite over every sibling document
of the category is started, with no prompt; when the key set drifted, the
document gets a schema-conformant rewrite and the schema is unchanged. -/
theorem order_only_sync (settings : TypeSyncSettings)
    (schemas : List (String × TypeSchema)) (freshRev : SchemaRevision)
    (files : List VaultFile) (selfPath : String) (p next : Snapshot) (t : String)
    (schema : TypeSchema) (hprev : p.typeValue = some t) (hnext : next.typeValue = some t)
    (hschema : schemaLookup schemas t = some schema)
    (hsync : settings.syncOrder = true)
    (hna : isNoteAheadOfSchema next.noteRev schema.rev = false)
    (hsa : isSchemaAheadOfNote schema.rev next.noteRev = false)
    (hadded : (computeDiff p next).added = [])
    (hremoved : (computeDiff p next).removed = [])
    (horder : (computeDiff p next).orderChanged = true) :
    (schema.keysOrdered.toFinset = next.keysSet.toFinset →
      handleModify false settings schemas freshRev files selfPath (some p) next =
        ModifyOutcome.orderAdopted t
          (updateSchemaRevision { schema with keysOrdered := next.keysOrdered }
            ⟨[], [], true⟩ freshRev)
          ((getFilesByType files t).filter (fun f => f.path != selfPath)) ∧
      (updateSchemaRevision { schema with keysOrdered := next.keysOrdered }
        ⟨[], [], true⟩ freshRev).keysOrdered = next.keysOrdered ∧
      (updateSchemaRevision { schema with keysOrdered := next.keysOrdered }
        ⟨[], [], true⟩ freshRev).rev = freshRev ∧
      (∀ f ∈ files, ∀ s, f.snap = some s → s.typeValue = some t → f.path ≠ selfPath →
        f ∈ (getFilesByType files t).filter (fun f => f.path != selfPath))) ∧
    (schema.keysOrdered.toFinset ≠ next.keysSet.toFinset →
      handleModify false settings schemas freshRev files selfPath (some p) next =
        ModifyOutcome.orderDriftRewrite t) := by
  constructor
  · intro hset
    have hmatch : keySetMatchesSchema schema next = true :=
      (keySetMatchesSchema_iff _ _).mpr hset
    refine ⟨?_, rfl, rfl, ?_⟩
    · simp [handleModify, hprev, hnext, hschema, hna, hsa, hsync, hadded, hremoved,
        horder, hmatch]
    · intro f hf s hsnap htype hpath
      apply List.mem_filter.mpr
      refine ⟨?_, by simp [bne_iff_ne, hpath]⟩
      apply List.mem_filter.mpr
      refine ⟨hf, ?_⟩
      rw [hsnap]
      show (s.typeValue == some t) = true
      rw [htype]
      simp
  · intro hset
    have hmatch : keySetMatchesSchema schema next = false := by
      cases hc : keySetMatchesSchema schema next
      · rfl
      · exact absurd ((keySetMatchesSchema_iff _ _).mp hc) hset
    simp [handleModify, hprev, hnext, hschema, hna, hsa, hsync, hadded, hremoved,
      horder, hmatch]

/-- Witness for C3: the reorder of b and a is adopted into the schema and the
sibling file is targeted; with a drifted schema the same event forces a
rewrite instead. -/
theorem order_only_sync_witness :
    handleModify false sampleSettings [("T", sampleSchemaAB)] sampleRev6 [sampleFile1]
      "self.md" (some samplePrevSnap) sampleNextSnap =
      ModifyOutcome.orderAdopted "T"
        (updateSchemaRevision { sampleSchemaAB with keysOrdered := sampleNextSnap.keysOrdered }
          ⟨[], [], true⟩ sampleRev6)
        ((getFilesByType [sampleFile1] "T").filter (fun f => f.path != "self.md")) ∧
    handleModify false sampleSettings [("T", sampleSchemaAC)] sampleRev6 [sampleFile1]
      "self.md" (some samplePrevSnap) sampleNextSnap =
      ModifyOutcome.orderDriftRewrite "T" :=
  ⟨((order_only_sync sampleSettings [("T", sampleSchemaAB)] sampleRev6 [sampleFile1]
      "self.md" samplePrevSnap sampleNextSnap "T" sampleSchemaAB rfl rfl rfl rfl
      (by decide) (by decide) (by decide) (by decide) (by decide)).1 (by decide)).1,
   (order_only_sync sampleSettings [("T", sampleSchemaAC)] sampleRev6 [sampleFile1]
      "self.md" samplePrevSnap sampleNextSnap "T" sampleSchemaAC rfl rfl rfl rfl
      (by decide) (by decide) (by decide) (by decide) (by decide)).2 (by decide)⟩

/-! C5: the bulk runner. -/

theorem runBulkLoop_eq {α : Type} (perFile : Nat → α → Bool) (cancelAt : Nat → Bool) :
    ∀ (l : List (Option α)) (i completed failures : Nat) (attempted : List Nat),
      runBulkLoop perFile cancelAt l i completed failures attempted =
        (completed + (processedSpec cancelAt l i).length,
         failures + ((processedSpec cancelAt l i).filter
           (fun q => !(perFile q.1 q.2))).length,
         brokeSpec cancelAt l i,
         attempted ++ (processedSpec cancelAt l i).map (fun q => q.1))
  | [], i, c, fl, att => by simp [runBulkLoop, processedSpec, brokeSpec]
  | f :: rest, i, c, fl, att => by
    by_cases hc : cancelAt i = true
    · simp [runBulkLoop, processedSpec, brokeSpec, hc]
    · have hcf : cancelAt i = false := by simpa using hc
      cases f with
      | none =>
        simp only [runBulkLoop, processedSpec, brokeSpec, hcf, Bool.false_eq_true,
          if_false]
        exact runBulkLoop_eq perFile cancelAt rest (i + 1) c fl att
      | some a =>
        simp only [runBulkLoop, processedSpec, brokeSpec, hcf, Bool.false_eq_true,
          if_false]
        rw [runBulkLoop_eq perFile cancelAt rest (i + 1) (c + 1)
          (if perFile i a then fl else fl + 1) (att ++ [i])]
        cases hp : perFile i a <;>
          simp [hp, List.filter_cons, Nat.add_assoc, Nat.add_comm, Nat.add_left_comm]

theorem mem_processedSpec {α : Type} (cancelAt : Nat → Bool) :
    ∀ (l : List (Option α)) (i k : Nat) (a : α),
      ((k, a) ∈ processedSpec cancelAt l i ↔
        (∃ j, k = i + j ∧ l.get? j = some (some a) ∧
          ∀ m, m ≤ j → cancelAt (i + m) = false))
  | [], i, k, a => by simp [processedSpec]
  | f :: rest, i, k, a => by
    by_cases hc : cancelAt i = true
    · simp only [processedSpec, hc, if_true]
      simp only [List.not_mem_nil, false_iff, not_exists, not_and]
      intro j hk hget hall
      have h0 := hall 0 (Nat.zero_le j)
      rw [Nat.add_zero, hc] at h0
      cases h0
    · have hcf : cancelAt i = false := by simpa using hc
      cases f with
      | none =>
        simp only [processedSpec, hcf, Bool.false_eq_true, if_false]
        rw [mem_processedSpec cancelAt rest (i + 1) k a]
        constructor
        · rintro ⟨j, rfl, hget, hall⟩
          refine ⟨j + 1, by omega, by simpa using hget, fun m hm => ?_⟩
          cases m with
          | zero => rw [Nat.add_zero]; exact hcf
          | succ m' =>
            have hidx : i + (m' + 1) = i + 1 + m' := by omega
            rw [hidx]
            exact hall m' (by omega)
        · rintro ⟨j, rfl, hget, hall⟩
          cases j with
          | zero => simp at hget
          | succ j' =>
            refine ⟨j', by omega, by simpa using hget, fun m hm => ?_⟩
            have hidx : i + 1 + m = i + (m + 1) := by omega
            rw [hidx]
            exact hall (m + 1) (by omega)
      | some b =>
        simp only [processedSpec, hcf, Bool.false_eq_true, if_false]
        rw [List.mem_cons, mem_processedSpec cancelAt rest (i + 1) k a]
        constructor
        · rintro (heq | ⟨j, rfl, hget, hall⟩)
          · obtain ⟨rfl, rfl⟩ : k = i ∧ a = b := by
              constructor <;> [exact congrArg Prod.fst heq; exact congrArg Prod.snd heq]
            refine ⟨0, by omega, by simp, fun m hm => ?_⟩
            have hm0 : m = 0 := by omega
            subst hm0
            rw [Nat.add_zero]
            exact hcf
          · refine ⟨j + 1, by omega, by simpa using hget, fun m hm => ?_⟩
            cases m with
            | zero => rw [Nat.add_zero]; exact hcf
            | succ m' =>
              have hidx : i + (m' + 1) = i + 1 + m' := by omega
              rw [hidx]
              exact hall m' (by omega)
        · rintro ⟨j, rfl, hget, hall⟩
          cases j with
          | zero =>
            left
            have hb : b = a := by simpa using hget
            rw [Nat.add_zero, hb]
          | succ j' =>
            right
            refine ⟨j', by omega, by simpa using hget, fun m hm => ?_⟩
            have hidx : i + 1 + m = i + (m + 1) := by omega
            rw [hidx]
            exact hall (m + 1) (by omega)

/-- C5: the bulk runner releases the lock and reports the final counts on every
completion path; cancellation is only checked before each file (the set of
attempted indices is exactly the prefix up to the first canceled check, and is
independent of per-file outcomes, so a thrown per-file operation is counted as
a failure without preventing any later file from being attempted). -/
theorem run_bulk_report {α : Type} (files : List (Option α)) (perFile : Nat → α → Bool)
    (cancelAt : Nat → Bool) :
    (runBulk files perFile cancelAt).1.lockHeldAfter = false ∧
    (runBulk files perFile cancelAt).1.total = files.length ∧
    (runBulk files perFile cancelAt).2 =
      (processedSpec cancelAt files 0).map (fun q => q.1) ∧
    (runBulk files perFile cancelAt).1.completed =
      (processedSpec cancelAt files 0).length ∧
    (runBulk files perFile cancelAt).1.failures =
      ((processedSpec cancelAt files 0).filter (fun q => !(perFile q.1 q.2))).length ∧
    (∀ (k : Nat) (a : α), (k, a) ∈ processedSpec cancelAt files 0 ↔
      ((∀ m, m ≤ k → cancelAt m = false) ∧ files.get? k = some (some a))) := by
  have hloop := runBulkLoop_eq perFile cancelAt files 0 0 0 []
  refine ⟨rfl, rfl, ?_, ?_, ?_, ?_⟩
  · show (runBulkLoop perFile cancelAt files 0 0 0 []).2.2.2 = _
    rw [hloop]
    simp
  · show (runBulkLoop perFile cancelAt files 0 0 0 []).1 = _
    rw [hloop]
    simp
  · show (runBulkLoop perFile cancelAt files 0 0 0 []).2.1 = _
    rw [hloop]
    simp
  · intro k a
    rw [mem_processedSpec cancelAt files 0 k a]
    constructor
    · rintro ⟨j, rfl, hget, hall⟩
      simp only [Nat.zero_add] at hget ⊢
      exact ⟨fun m hm => by simpa using hall m (by omega), by simpa using hget⟩
    · rintro ⟨hall, hget⟩
      exact ⟨k, by omega, hget, fun m hm => by simpa using hall m hm⟩

/-! C6: snapshot extraction tolerance. -/

theorem extractOrderedKeys_empty (fmText : List Char) :
    extractOrderedKeysFromFrontmatterText fmText [] = [] := by
  simp only [extractOrderedKeysFromFrontmatterText]
  have hfold : ∀ (lines : List (List Char)),
      lines.foldl (fun (keys : List String) line =>
        match lineKeyCandidate line with
        | none => keys
        | some kraw =>
          let key := jsTrim (String.mk kraw)
          if key.length = 0 then keys
          else if !(([] : List String).contains key) then keys
          else if keys.contains key then keys
          else keys ++ [key]) [] = [] := by
    intro lines
    induction lines with
    | nil => rfl
    | cons line rest ih =>
      rw [List.foldl_cons]
      have hstep : (match lineKeyCandidate line with
          | none => ([] : List String)
          | some kraw =>
            let key := jsTrim (String.mk kraw)
            if key.length = 0 then []
            else if !(([] : List String).contains key) then []
            else if ([] : List String).contains key then []
            else [] ++ [key]) = [] := by
        cases lineKeyCandidate line with
        | none => rfl
        | some kraw =>
          by_cases hlen : (jsTrim (String.mk kraw)).length = 0
          · simp only [hlen, if_true]
          · simp only [hlen, if_false]
            rfl
      rw [hstep]
      exact ih
  rw [hfold]
  rfl

/-- C6 counterexample: with the structured parser behaving like js-yaml, a
delimited but malformed header block ("[", an unclosed flow sequence) makes
the parser throw and snapshot building fail — it does not succeed with an
empty-header snapshot as claimed; and a delimited block that loads as null
does succeed with no category and an empty key set, but keeps
`hasFrontmatter = true`, not the claimed `false`. -/
theorem malformed_header_raises :
    buildSnapshot sampleJsYaml ("---\n[\n---\nbody".data) = none ∧
    buildSnapshot sampleJsYaml ("---\n# c\n---\nbody".data) =
      some ⟨none, [], [], [], true, "---\n# c\n---\nbody", none⟩ := by
  refine ⟨by decide, by decide⟩

/-- C6 (amended): text with no header block or no matching end marker is
treated as an empty header without consulting the structured parser
(`hasFrontmatter = false`); a delimited block whose parse throws makes
snapshot building fail (the source does not catch the parser); any
non-throwing parse succeeds; and a delimited block whose parse yields null
degrades to no category and an empty key set but keeps
`hasFrontmatter = true`. -/
theorem build_snapshot_tolerant (yamlParse : List Char → YamlResult)
    (content : List Char) :
    ((extractFrontmatter content).hasFrontmatter = false →
      buildSnapshot yamlParse content =
        some ⟨none, [], [], [], false, String.mk content, none⟩) ∧
    (∀ (fmText body : List Char),
      extractFrontmatter content = ⟨fmText, body, true⟩ →
      yamlParse fmText = YamlResult.nullish →
      buildSnapshot yamlParse content =
        some ⟨none, [], [], [], true, String.mk content, none⟩) ∧
    (listStartsWith content ['-', '-', '-', '\n'] = false →
      content ≠ ['-', '-', '-'] →
      (extractFrontmatter content).hasFrontmatter = false) ∧
    (listStartsWith content ['-', '-', '-', '\n'] = true →
      findSubFrom ['\n', '-', '-', '-'] content 0 4 = none →
      (extractFrontmatter content).hasFrontmatter = false) ∧
    (∀ (fmText body : List Char),
      extractFrontmatter content = ⟨fmText, body, true⟩ →
      yamlParse fmText = YamlResult.thrown →
      buildSnapshot yamlParse content = none) ∧
    (∀ (fmText body : List Char),
      extractFrontmatter content = ⟨fmText, body, true⟩ →
      yamlParse fmText ≠ YamlResult.thrown →
      (buildSnapshot yamlParse content).isSome = true) := by
  refine ⟨?_, ?_, ?_, ?_, ?_, ?_⟩
  · intro hfm
    simp only [buildSnapshot, hfm, Bool.false_eq_true, if_false]
    rfl
  · intro fmText body hparts hparse
    simp only [buildSnapshot, hparts, if_true, hparse]
    have hks : jsSetList ((([] : List (String × Value)).map Prod.fst).filter
        (fun k => !(INTERNAL_KEYS.contains k))) = [] := rfl
    rw [hks, extractOrderedKeys_empty]
    rfl
  · intro hstart hne
    unfold extractFrontmatter
    rw [if_pos]
    rw [hstart]
    simp [bne_iff_ne, hne]
  · intro hstart hfind
    unfold extractFrontmatter
    rw [if_neg, hfind]
    rw [hstart]
    simp
  · intro fmText body hparts hparse
    simp only [buildSnapshot, hparts, if_true, hparse]
  · intro fmText body hparts hparse
    cases hx : yamlParse fmText with
    | thrown => exact absurd hx hparse
    | nullish => simp only [buildSnapshot, hparts, if_true, hx, Option.isSome_some]
    | scalarStr s => simp only [buildSnapshot, hparts, if_true, hx, Option.isSome_some]
    | scalarOther => simp only [buildSnapshot, hparts, if_true, hx, Option.isSome_some]
    | arr elems => simp only [buildSnapshot, hparts, if_true, hx, Option.isSome_some]
    | obj o => simp only [buildSnapshot, hparts, if_true, hx, Option.isSome_some]

/-- Witness for the amended C6 theorem: a plain document has an empty-header
snapshot; a comment-only block (loading as null) degrades with the flag kept
true; the malformed block makes building fail; a string-scalar block succeeds,
and concretely yields the scalar's index keys as the key set, with no
category. -/
theorem build_snapshot_tolerant_witness :
    buildSnapshot sampleJsYaml ("hello".data) =
      some ⟨none, [], [], [], false, String.mk "hello".data, none⟩ ∧
    buildSnapshot sampleJsYaml ("---\n# c\n---\nbody".data) =
      some ⟨none, [], [], [], true, String.mk "---\n# c\n---\nbody".data, none⟩ ∧
    buildSnapshot sampleJsYaml ("---\n[\n---\nbody".data) = none ∧
    (buildSnapshot sampleJsYaml ("---\nhello\n---\n".data)).isSome = true ∧
    buildSnapshot sampleJsYaml ("---\nhello\n---\n".data) =
      some ⟨none, ["0", "1", "2", "3", "4"], ["0", "1", "2", "3", "4"],
        [("0", Value.vStr "h"), ("1", Value.vStr "e"), ("2", Value.vStr "l"),
         ("3", Value.vStr "l"), ("4", Value.vStr "o")], true, "---\nhello\n---\n", none⟩ :=
  ⟨(build_snapshot_tolerant sampleJsYaml ("hello".data)).1 (by decide),
   (build_snapshot_tolerant sampleJsYaml ("---\n# c\n---\nbody".data)).2.1
     ("# c".data) ("body".data) (by decide) rfl,
   (build_snapshot_tolerant sampleJsYaml ("---\n[\n---\nbody".data)).2.2.2.2.1
     ("[".data) ("body".data) (by decide) rfl,
   (build_snapshot_tolerant sampleJsYaml ("---\nhello\n---\n".data)).2.2.2.2.2
     ("hello".data) ([]) (by decide) (by decide),
   by decide⟩

/-! C7: external-change reconciliation notices. -/

theorem noticeFor_typeValue (prev : List (String × TypeSchema))
    (entry : String × TypeSchema) (n : SchemaChangeNotice)
    (hf : noticeFor prev entry = some n) : n.typeValue = entry.1 := by
  cases hlk : schemaLookup prev entry.1 with
  | none =>
    simp only [noticeFor, hlk] at hf
    cases hf
    rfl
  | some psch =>
    simp only [noticeFor, hlk] at hf
    by_cases hb : (compareRevisions psch.rev entry.2.rev == 0) = true
    · rw [if_pos hb] at hf
      cases hf
    · rw [if_neg hb] at hf
      cases hf
      rfl

theorem assoc_nodup_eq {β : Type} (l : List (String × β))
    (hn : (l.map Prod.fst).Nodup) (tv : String) (a b : β)
    (ha : (tv, a) ∈ l) (hb : (tv, b) ∈ l) : a = b := by
  induction l with
  | nil => cases ha
  | cons x rest ih =>
    obtain ⟨xt, xv⟩ := x
    simp only [List.map_cons, List.nodup_cons] at hn
    rcases List.mem_cons.mp ha with haeq | ha'
    · rcases List.mem_cons.mp hb with hbeq | hb'
      · injection haeq with h1 h2
        injection hbeq with h3 h4
        rw [h2, h4]
      · exfalso
        injection haeq with h1 h2
        apply hn.1
        rw [← h1]
        exact List.mem_map.mpr ⟨(tv, b), hb', rfl⟩
    · rcases List.mem_cons.mp hb with hbeq | hb'
      · exfalso
        injection hbeq with h3 h4
        apply hn.1
        rw [← h3]
        exact List.mem_map.mpr ⟨(tv, a), ha', rfl⟩
      · exact ih hn.2 ha' hb'

/-- C7 counterexample: with equal-length but set-different key lists
(Type,a → Type,b) and changed revisions, the notice reports
`orderChanged = true`, while the 4.2-style diff of the same two key lists has
`orderChanged = false` (the sets differ) — so the notice fields do not equal
the 4.2-style diff. -/
theorem notices_orderChanged_mismatch :
    computeSchemaChangeNotices cxPrevTable cxNextTable =
      [⟨"T", ["b"], ["a"], true⟩] ∧
    (computeDiff cxPrevDiffSnap cxNextDiffSnap).orderChanged = false ∧
    (computeDiff cxPrevDiffSnap cxNextDiffSnap).added = ["b"] ∧
    (computeDiff cxPrevDiffSnap cxNextDiffSnap).removed = ["a"] := by
  refine ⟨by decide, by decide, by decide, by decide⟩

/-- C7 (amended): newly introduced categories are reported with all their keys
minus the discriminator and nothing removed; categories present in both tables
with differing revisions are reported with added/removed equal to the key-set
differences minus the discriminator, but with `orderChanged` true exactly when
the two key lists have equal length and differ as sequences, or (unequal
length) span the same key set — NOT the 4.2-style diff, which would force the
sets to be equal; unchanged revisions produce no notice. -/
theorem schema_change_notices_amended (prev next : List (String × TypeSchema)) :
    (∀ tv nsch, (tv, nsch) ∈ next → schemaLookup prev tv = none →
      (⟨tv, nsch.keysOrdered.filter (fun k => k != TYPE_KEY), [], false⟩ :
        SchemaChangeNotice) ∈ computeSchemaChangeNotices prev next) ∧
    (∀ tv nsch psch, (tv, nsch) ∈ next → schemaLookup prev tv = some psch →
      compareRevisions psch.rev nsch.rev ≠ 0 →
      ∃ n ∈ computeSchemaChangeNotices prev next, n.typeValue = tv ∧
        n.added.toFinset =
          (nsch.keysOrdered.toFinset \ psch.keysOrdered.toFinset).erase TYPE_KEY ∧
        n.removed.toFinset =
          (psch.keysOrdered.toFinset \ nsch.keysOrdered.toFinset).erase TYPE_KEY ∧
        (n.orderChanged = true ↔
          ((psch.keysOrdered.length = nsch.keysOrdered.length ∧
            psch.keysOrdered ≠ nsch.keysOrdered) ∨
           (psch.keysOrdered.length ≠ nsch.keysOrdered.length ∧
            psch.keysOrdered.toFinset = nsch.keysOrdered.toFinset)))) ∧
    ((next.map Prod.fst).Nodup →
      ∀ tv nsch psch, (tv, nsch) ∈ next → schemaLookup prev tv = some psch →
      compareRevisions psch.rev nsch.rev = 0 →
      ∀ n ∈ computeSchemaChangeNotices prev next, n.typeValue ≠ tv) := by
  refine ⟨?_, ?_, ?_⟩
  · intro tv nsch hmem hlk
    apply List.mem_filterMap.mpr
    refine ⟨(tv, nsch), hmem, ?_⟩
    simp only [noticeFor, hlk]
  · intro tv nsch psch hmem hlk hrev
    have hb : ¬ ((compareRevisions psch.rev nsch.rev == 0) = true) := by
      simp [hrev]
    have hf : noticeFor prev (tv, nsch) =
        some ⟨tv,
          ((jsSetList nsch.keysOrdered).filter
            (fun k => !((jsSetList psch.keysOrdered).contains k))).filter
            (fun k => k != TYPE_KEY),
          ((jsSetList psch.keysOrdered).filter
            (fun k => !((jsSetList nsch.keysOrdered).contains k))).filter
            (fun k => k != TYPE_KEY),
          (if psch.keysOrdered.length == nsch.keysOrdered.length then
            !(psch.keysOrdered == nsch.keysOrdered)
          else
            ((jsSetList psch.keysOrdered).length == (jsSetList nsch.keysOrdered).length)
              && (jsSetList psch.keysOrdered).all
                (fun k => (jsSetList nsch.keysOrdered).contains k))⟩ := by
      simp only [noticeFor, hlk]
      rw [if_neg hb]
    refine ⟨_, List.mem_filterMap.mpr ⟨(tv, nsch), hmem, hf⟩, rfl, ?_, ?_, ?_⟩
    · ext x
      simp only [List.mem_toFinset, List.mem_filter, mem_jsSetList,
        not_contains_jsSetList, bne_iff_ne, Finset.mem_erase, Finset.mem_sdiff]
      tauto
    · ext x
      simp only [List.mem_toFinset, List.mem_filter, mem_jsSetList,
        not_contains_jsSetList, bne_iff_ne, Finset.mem_erase, Finset.mem_sdiff]
      tauto
    · by_cases hlen : psch.keysOrdered.length = nsch.keysOrdered.length
      · rw [if_pos (by simp [hlen])]
        constructor
        · intro hoc
          refine Or.inl ⟨hlen, ?_⟩
          intro heq
          rw [heq] at hoc
          simp at hoc
        · rintro (⟨-, hne⟩ | ⟨hne, -⟩)
          · simp only [Bool.not_eq_true', beq_eq_false_iff_ne, ne_eq]
            exact hne
          · exact absurd hlen hne
      · rw [if_neg (by simp [hlen])]
        rw [jsSameSet_iff]
        constructor
        · intro hfin
          exact Or.inr ⟨hlen, hfin⟩
        · rintro (⟨heq, -⟩ | ⟨-, hfin⟩)
          · exact absurd heq hlen
          · exact hfin
  · intro hnodup tv nsch psch hmem hlk hrev n hn hcontra
    obtain ⟨entry, hentrymem, hf⟩ := List.mem_filterMap.mp hn
    have htv := noticeFor_typeValue prev entry n hf
    rw [hcontra] at htv
    obtain ⟨et, es⟩ := entry
    have het : et = tv := by
      simpa using htv.symm
    subst het
    have hes : es = nsch := assoc_nodup_eq next hnodup et es nsch hentrymem hmem
    subst hes
    simp only [noticeFor, hlk] at hf
    rw [if_pos (by simp [hrev])] at hf
    cases hf

/-- Witness for the amended C7 theorem: a newly introduced category "B" is
reported with its keys minus the discriminator. -/
theorem schema_change_notices_amended_witness :
    (⟨"B", ["x"], [], false⟩ : SchemaChangeNotice) ∈
      computeSchemaChangeNotices [] [("B", ⟨["Type", "x"], ⟨1, "i"⟩, none⟩)] :=
  (schema_change_notices_amended [] [("B", ⟨["Type", "x"], ⟨1, "i"⟩, none⟩)]).1 "B"
    ⟨["Type", "x"], ⟨1, "i"⟩, none⟩ (by decide) rfl

/-! C8: schema-table normalization. -/

/-- C8 counterexample: an entry with a well-formed key list but a missing
revision is NOT repaired to the pair ([discriminator], fresh) —
it keeps its key list and only receives a fresh revision. -/
theorem normalize_keeps_keys_on_missing_rev :
    normalizeSchemas (fun _ => ⟨0, "f"⟩) [("T", some ⟨some ["Type", "a"], none, none⟩)] 0 =
      [("T", ⟨["Type", "a"], ⟨0, "f"⟩, none⟩)] ∧
    normalizeSchemas (fun _ => ⟨0, "f"⟩) [("T", some ⟨some ["Type", "a"], none, none⟩)] 0 ≠
      [("T", ⟨[TYPE_KEY], ⟨0, "f"⟩, none⟩)] := by
  refine ⟨by decide, by decide⟩

/-- C8 (amended): normalization is total and length-preserving; every entry of
the result contains the discriminator key; an entry that is falsy or lacks a
well-formed key list is repaired to exactly ([discriminator], fresh); an
entry with a well-formed key list but a missing revision keeps its key list
(with the discriminator prepended when absent) and receives a fresh revision;
a complete entry keeps its revision and only has the discriminator prepended
when absent. -/
theorem normalize_schemas_amended (freshAt : Nat → SchemaRevision) :
    ∀ (table : List (String × Option RawSchema)) (i : Nat),
      (normalizeSchemas freshAt table i).length = table.length ∧
      (∀ e ∈ normalizeSchemas freshAt table i, TYPE_KEY ∈ e.2.keysOrdered) ∧
      (∀ j t s, table.get? j = some (t, s) →
        (s = none ∨ ∃ raw, s = some raw ∧ raw.keysOrdered = none) →
        ∃ m, (normalizeSchemas freshAt table i).get? j =
          some (t, ⟨[TYPE_KEY], freshAt m, none⟩)) ∧
      (∀ j t raw keys, table.get? j = some (t, some raw) → raw.keysOrdered = some keys →
        raw.rev = none →
        ∃ m, (normalizeSchemas freshAt table i).get? j =
          some (t, ⟨(if keys.contains TYPE_KEY then keys else TYPE_KEY :: keys),
            freshAt m, raw.lastChangeSummary⟩)) ∧
      (∀ j t raw keys r, table.get? j = some (t, some raw) → raw.keysOrdered = some keys →
        raw.rev = some r →
        (normalizeSchemas freshAt table i).get? j =
          some (t, ⟨(if keys.contains TYPE_KEY then keys else TYPE_KEY :: keys),
            r, raw.lastChangeSummary⟩)) := by
  intro table
  induction table with
  | nil =>
    intro i
    refine ⟨rfl, by simp [normalizeSchemas], ?_, ?_, ?_⟩
    · intro j t s hget
      simp at hget
    · intro j t raw keys hget
      simp at hget
    · intro j t raw keys r hget
      simp at hget
  | cons hd rest ih =>
    intro i
    obtain ⟨t0, s0⟩ := hd
    have hkeys2 : ∀ (keys : List String),
        TYPE_KEY ∈ (if keys.contains TYPE_KEY then keys else TYPE_KEY :: keys) := by
      intro keys
      split
      case isTrue h => exact (contains_iff_mem _ _).mp h
      case isFalse h => exact List.mem_cons_self _ _
    rcases hs0 : s0 with - | raw
    · -- falsy entry
      simp only [normalizeSchemas]
      refine ⟨by simp [(ih (i + 1)).1], ?_, ?_, ?_, ?_⟩
      · intro e he
        rcases List.mem_cons.mp he with rfl | he'
        · simp [TYPE_KEY]
        · exact (ih (i + 1)).2.1 e he'
      · intro j t s hget hmal
        cases j with
        | zero =>
          simp only [List.get?_cons_zero, Option.some.injEq] at hget
          injection hget with h1 h2
          subst h1
          exact ⟨i, by simp⟩
        | succ j' =>
          simp only [List.get?_cons_succ] at hget ⊢
          exact (ih (i + 1)).2.2.1 j' t s hget hmal
      · intro j t raw' keys hget hko hrv
        cases j with
        | zero => simp at hget
        | succ j' =>
          simp only [List.get?_cons_succ] at hget ⊢
          exact (ih (i + 1)).2.2.2.1 j' t raw' keys hget hko hrv
      · intro j t raw' keys r hget hko hrv
        cases j with
        | zero => simp at hget
        | succ j' =>
          simp only [List.get?_cons_succ] at hget ⊢
          exact (ih (i + 1)).2.2.2.2 j' t raw' keys r hget hko hrv
    · obtain ⟨ko, rv, summ⟩ := raw
      rcases hko : ko with - | keys
      · -- key list missing / not an array
        subst hko
        simp only [normalizeSchemas]
        refine ⟨by simp [(ih (i + 1)).1], ?_, ?_, ?_, ?_⟩
        · intro e he
          rcases List.mem_cons.mp he with rfl | he'
          · simp [TYPE_KEY]
          · exact (ih (i + 1)).2.1 e he'
        · intro j t s hget hmal
          cases j with
          | zero =>
            simp only [List.get?_cons_zero, Option.some.injEq] at hget
            injection hget with h1 h2
            subst h1
            exact ⟨i, by simp⟩
          | succ j' =>
            simp only [List.get?_cons_succ] at hget ⊢
            exact (ih (i + 1)).2.2.1 j' t s hget hmal
        · intro j t raw' keys hget hko' hrv
          cases j with
          | zero =>
            simp only [List.get?_cons_zero, Option.some.injEq] at hget
            injection hget with h1 h2
            injection h2 with h3
            rw [← h3] at hko'
            cases hko'
          | succ j' =>
            simp only [List.get?_cons_succ] at hget ⊢
            exact (ih (i + 1)).2.2.2.1 j' t raw' keys hget hko' hrv
        · intro j t raw' keys r hget hko' hrv
          cases j with
          | zero =>
            simp only [List.get?_cons_zero, Option.some.injEq] at hget
            injection hget with h1 h2
            injection h2 with h3
            rw [← h3] at hko'
            cases hko'
          | succ j' =>
            simp only [List.get?_cons_succ] at hget ⊢
            exact (ih (i + 1)).2.2.2.2 j' t raw' keys r hget hko' hrv
      · subst hko
        rcases hrv : rv with - | r
        · -- revision missing, key list kept
          subst hrv
          simp only [normalizeSchemas]
          refine ⟨by simp [(ih (i + 1)).1], ?_, ?_, ?_, ?_⟩
          · intro e he
            rcases List.mem_cons.mp he with rfl | he'
            · exact hkeys2 keys
            · exact (ih (i + 1)).2.1 e he'
          · intro j t s hget hmal
            cases j with
            | zero =>
              simp only [List.get?_cons_zero, Option.some.injEq] at hget
              injection hget with h1 h2
              rcases hmal with h | ⟨raw', hraw', hko'⟩
              · rw [h] at h2
                cases h2
              · rw [hraw'] at h2
                injection h2 with h3
                rw [← h3] at hko'
                cases hko'
            | succ j' =>
              simp only [List.get?_cons_succ] at hget ⊢
              exact (ih (i + 1)).2.2.1 j' t s hget hmal
          · intro j t raw' keys' hget hko' hrv'
            cases j with
            | zero =>
              simp only [List.get?_cons_zero, Option.some.injEq] at hget
              injection hget with h1 h2
              injection h2 with h3
              subst h1
              rw [← h3] at hko' hrv' ⊢
              injection hko' with h4
              subst h4
              exact ⟨i, by simp⟩
            | succ j' =>
              simp only [List.get?_cons_succ] at hget ⊢
              exact (ih (i + 1)).2.2.2.1 j' t raw' keys' hget hko' hrv'
          · intro j t raw' keys' r' hget hko' hrv'
            cases j with
            | zero =>
              simp only [List.get?_cons_zero, Option.some.injEq] at hget
              injection hget with h1 h2
              injection h2 with h3
              rw [← h3] at hrv'
              cases hrv'
            | succ j' =>
              simp only [List.get?_cons_succ] at hget ⊢
              exact (ih (i + 1)).2.2.2.2 j' t raw' keys' r' hget hko' hrv'
        · -- complete entry
          subst hrv
          simp only [normalizeSchemas]
          refine ⟨by simp [(ih i).1], ?_, ?_, ?_, ?_⟩
          · intro e he
            rcases List.mem_cons.mp he with rfl | he'
            · exact hkeys2 keys
            · exact (ih i).2.1 e he'
          · intro j t s hget hmal
            cases j with
            | zero =>
              simp only [List.get?_cons_zero, Option.some.injEq] at hget
              injection hget with h1 h2
              rcases hmal with h | ⟨raw', hraw', hko'⟩
              · rw [h] at h2
                cases h2
              · rw [hraw'] at h2
                injection h2 with h3
                rw [← h3] at hko'
                cases hko'
            | succ j' =>
              simp only [List.get?_cons_succ] at hget ⊢
              exact (ih i).2.2.1 j' t s hget hmal
          · intro j t raw' keys' hget hko' hrv'
            cases j with
            | zero =>
              simp only [List.get?_cons_zero, Option.some.injEq] at hget
              injection hget with h1 h2
              injection h2 with h3
              rw [← h3] at hrv'
              cases hrv'
            | succ j' =>
              simp only [List.get?_cons_succ] at hget ⊢
              exact (ih i).2.2.2.1 j' t raw' keys' hget hko' hrv'
          · intro j t raw' keys' r' hget hko' hrv'
            cases j with
            | zero =>
              simp only [List.get?_cons_zero, Option.some.injEq] at hget
              injection hget with h1 h2
              injection h2 with h3
              subst h1
              rw [← h3] at hko' hrv' ⊢
              injection hko' with h4
              injection hrv' with h5
              subst h4
              subst h5
              simp
            | succ j' =>
              simp only [List.get?_cons_succ] at hget ⊢
              exact (ih i).2.2.2.2 j' t raw' keys' r' hget hko' hrv'

/-- Witness for the amended C8 theorem at a concrete three-entry table. -/
theorem normalize_schemas_amended_witness :
    ∃ m, (normalizeSchemas (fun n => ⟨Int.ofNat n, "f"⟩)
        [("A", none), ("B", some ⟨some ["x"], none, none⟩),
         ("C", some ⟨some ["Type"], some ⟨9, "z"⟩, none⟩)] 0).get? 1 =
      some ("B", ⟨["Type", "x"], (fun n => (⟨Int.ofNat n, "f"⟩ : SchemaRevision)) m, none⟩) :=
  (normalize_schemas_amended (fun n => ⟨Int.ofNat n, "f"⟩)
    [("A", none), ("B", some ⟨some ["x"], none, none⟩),
     ("C", some ⟨some ["Type"], some ⟨9, "z"⟩, none⟩)] 0).2.2.2.1 1 "B"
    ⟨some ["x"], none, none⟩ ["x"] rfl rfl rfl

end TypeSync
